import Mathlib

/-!
Verification of the core extraction pipeline of `ASFcsvFromHtml.py`
(the ASF-Statistics repository): line-oriented record extraction
(issue headers, story lines) and author-name normalization
(`last_first`, spelling/pen-name alias resolution).

Strings are modelled as Lean `String` / `List Char`; Python's
whitespace handling (`strip`, `split`) is modelled with
`Char.isWhitespace`, and `.lower()` with `Char.toLower`
(ASCII semantics, which is all the source data exercises).
-/

namespace ASF

/-! ## Character and list-of-char primitives -/

/-- Python `str.strip()` on a character list: drop whitespace at both ends. -/
def trimList (cs : List Char) : List Char :=
  ((cs.dropWhile Char.isWhitespace).reverse.dropWhile Char.isWhitespace).reverse

/-- Python `str.strip()` at the `String` level. -/
def strTrim (s : String) : String :=
  List.asString (trimList s.toList)

/-- Python `str.rstrip(',')`: drop trailing commas. -/
def dropTrailingComma (cs : List Char) : List Char :=
  (cs.reverse.dropWhile (fun c => c == ',')).reverse

/-- Lower-case a character list, modelling Python `str.lower()`. -/
def lowerL (cs : List Char) : List Char := cs.map Char.toLower

/-- `listIsPre a b` decides whether `a` is a leading segment of `b`. -/
def listIsPre : List Char → List Char → Bool
  | [], _ => true
  | _ :: _, [] => false
  | a :: as, b :: bs => a == b && listIsPre as bs

/-- `listIsSub n h` decides whether `n` occurs contiguously inside `h`,
modelling Python's `in` operator on strings. -/
def listIsSub (n : List Char) : List Char → Bool
  | [] => listIsPre n []
  | c :: cs => listIsPre n (c :: cs) || listIsSub n cs

/-- Whitespace-splitting accumulator: models Python `str.split()` with no
arguments (split on whitespace runs, dropping empty pieces). -/
def wsplitAux : List Char → List Char → List (List Char)
  | [], acc => if acc = [] then [] else [acc.reverse]
  | c :: cs, acc =>
    if c.isWhitespace then
      if acc = [] then wsplitAux cs [] else acc.reverse :: wsplitAux cs []
    else wsplitAux cs (c :: acc)

/-- Python `str.split()` (whitespace split) on a character list. -/
def wsplit (cs : List Char) : List (List Char) := wsplitAux cs []

/-- Python `str.split()` at the `String` level. -/
def wsplitStr (s : String) : List String :=
  (wsplit s.toList).map List.asString

/-- Python `" ".join(tokens)`: interleave single spaces. -/
def wjoin : List (List Char) → List Char
  | [] => []
  | [t] => t
  | t :: ts => t ++ ' ' :: wjoin ts

/-! ## IssueLineClassifier (`soup_to_dataframe`, lines 104-113) -/

/-- The twelve month names from `soup_to_dataframe`. -/
def months : List String :=
  ["January", "February", "March", "April", "May", "June",
   "July", "August", "September", "October", "November", "December"]

/-- Models `re.match(r"\d\d\d\d", w) != None`: the word begins with four
consecutive digit characters. -/
def beginsFourDigits (w : String) : Bool :=
  match w.toList with
  | a :: b :: c :: d :: _ => a.isDigit && b.isDigit && c.isDigit && d.isDigit
  | _ => false

/-- The issue-header test from `soup_to_dataframe`: the (already stripped)
line splits into exactly two words, the first a month name, the second
beginning with four digits. -/
def is_issue_line (line : String) : Bool :=
  match wsplitStr line with
  | [w1, w2] => months.contains w1 && beginsFourDigits w2
  | _ => false

/-! ## StoryLineParser (`soup_to_dataframe`, lines 118-126) -/

/-- `noParen c` is true when `c` is neither parenthesis, as in the regex
character class `[^()]`. -/
def noParen (c : Char) : Bool := !(c == '(' || c == ')')

/-- Core of the match against `^(.*)\(([^()]*)\)$`, on the reversed line:
the line must end in `)`, preceded by a paren-free run, preceded by `(`.
Returns (title chars, author chars), untrimmed. -/
def storySplit : List Char → Option (List Char × List Char)
  | [] => none
  | c :: rest =>
    if c == ')' then
      match rest.dropWhile noParen with
      | [] => none
      | d :: pre =>
        if d == '(' then some (pre.reverse, (rest.takeWhile noParen).reverse)
        else none
    else none

/-- Models the story-line match `re.match(r"^(.*)\(([^()]*)\)$", line)`
together with the `.strip()` on both captured groups. -/
def parseStory (line : String) : Option (String × String) :=
  match storySplit (trimList line.toList).reverse with
  | some (t, a) => some (List.asString (trimList t), List.asString (trimList a))
  | none => none

/-! ## NameFormatter (`last_first`, lines 153-206) -/

/-- The generational suffixes of the regex `(Jr\.?|Sr\.?|II|III|IV|V)$`,
lower-cased (the regex is case-insensitive). -/
def suffixLow : List String := ["jr", "jr.", "sr", "sr.", "ii", "iii", "iv", "v"]

/-- `wsComma c`: `c` is whitespace or a comma (the characters a suffix
separator `(?:,\s*|\s+)` may consume). -/
def wsComma (c : Char) : Bool := c.isWhitespace || c == ','

/-- Models `suffix_re.search(name)` for the suffix regex
`(?:,\s*|\s+)(Jr\.?|Sr\.?|II|III|IV|V)$` (case-insensitive, end-anchored,
leftmost match): the trailing run of non-whitespace non-comma characters
must be one of the suffixes, preceded by a nonempty separator; the
leftmost separator start is the last comma of the preceding
whitespace/comma run, or the whole run if it has no comma.
Returns `(name[:m.start()], m.group(1))`. -/
def suffixSplit (cs : List Char) : Option (List Char × List Char) :=
  let r := cs.reverse
  let runRev := r.takeWhile (fun c => !wsComma c)
  let preRev := r.dropWhile (fun c => !wsComma c)
  if runRev = [] then none
  else if !(suffixLow.contains (List.asString (lowerL runRev.reverse))) then none
  else if preRev = [] then none
  else
    let wsRun := preRev.takeWhile wsComma
    let sepRev := if wsRun.contains ',' then wsRun.takeWhile (fun c => c != ',') ++ [','] else wsRun
    some ((preRev.drop sepRev.length).reverse, runRev.reverse)

/-- The particle set of `last_first`. -/
def particles : List String :=
  ["van", "von", "de", "del", "di", "da", "la", "le", "du",
   "dos", "st", "st.", "ter", "van der", "van den", "de la"]

/-- The already-"Last, First" branch of `last_first`: split on the first
comma, strip both parts, reassemble (`last` alone when `rest` is empty). -/
def commaSplitResult (cs1 : List Char) : List Char :=
  let l := trimList (cs1.takeWhile (fun c => c != ','))
  let r := trimList ((cs1.dropWhile (fun c => c != ',')).tail)
  if r = [] then l else l ++ ',' :: ' ' :: r

/-- Worker for the token branch of `last_first`, over the reversed token
list (`q` is `tokens[-1]`, `p` is `tokens[-2]`, `gsRev` the rest). -/
def tokenResultRev : List (List Char) → Option (List Char)
  | [] => none
  | [t] => some t
  | q :: p :: gsRev =>
    let gs := gsRev.reverse
    let twoWordHit := (!gsRev.isEmpty) && particles.contains (List.asString (lowerL (p ++ ' ' :: q)))
    let pr :=
      if twoWordHit || particles.contains (List.asString (lowerL p)) then
        (p ++ ' ' :: q, wjoin gs)
      else (q, wjoin (gs ++ [p]))
    some (if pr.2 = [] then pr.1 else pr.1 ++ ',' :: ' ' :: pr.2)

/-- The token branch of `last_first`: choose the surname per the particle
rules. `none` models the Python `IndexError` on an empty token list
(`tokens[-2]` with fewer than one token). -/
def tokenResult (toks : List (List Char)) : Option (List Char) :=
  tokenResultRev toks.reverse

/-- Body of `last_first` after suffix handling: comma branch or token branch. -/
def bodyResult (cs1 : List Char) : Option (List Char) :=
  if cs1.contains ',' then some (commaSplitResult cs1) else tokenResult (wsplit cs1)

/-- `last_first(name)`: strip, detach a generational suffix, reorder into
"Last, First", re-append the suffix, collapse whitespace runs.
`none` models the `IndexError` reachable when the suffix strip leaves an
empty working name. -/
def last_first (name : String) : Option String :=
  let cs := trimList name.toList
  if cs = [] then some ""
  else
    let ks :=
      match suffixSplit cs with
      | some (kept, s) => (dropTrailingComma (trimList kept), s)
      | none => (cs, ([] : List Char))
    (bodyResult ks.1).map (fun res =>
      List.asString (wjoin (wsplit (if ks.2 = [] then res else res ++ ' ' :: ks.2))))

/-! ## AliasResolver (`change_aliases`, lines 258-269) -/

/-- An alias table: canonical name with its alias list, in iteration order
(Python dicts preserve insertion order). -/
abbrev AliasTable := List (String × List String)

/-- `alias.lower() in str(author).lower()`: case-insensitive substring test. -/
def aliasMatches (al author : String) : Bool :=
  listIsSub (lowerL al.toList) (lowerL author.toList)

/-- `change_aliases(author, namemap)`: return the canonical name of the
first entry with an alias that is a case-insensitive substring of
`author`; otherwise return `author` unchanged. -/
def change_aliases (author : String) : AliasTable → String
  | [] => author
  | (real_name, aliases) :: rest =>
    if aliases.any (fun al => aliasMatches al author) then real_name
    else change_aliases author rest

/-- `combine_spellings`, parameterized by the spelling table. -/
def combine_spellings (spell : AliasTable) (name : String) : String :=
  change_aliases name spell

/-- `process_pennames`, parameterized by the pen-name table. -/
def process_pennames (pen : AliasTable) (name : String) : String :=
  change_aliases name pen

/-- `normalize_author`: `last_first`, then spelling variants, then pen names. -/
def normalize_author (spell pen : AliasTable) (name : String) : Option String :=
  (last_first name).map (fun n => process_pennames pen (combine_spellings spell n))

/-- `spell_lastfirst`: `last_first` then spelling variants only. -/
def spell_lastfirst (spell : AliasTable) (name : String) : Option String :=
  (last_first name).map (fun n => combine_spellings spell n)

/-! ## ListingScanner (`soup_to_dataframe`, lines 82-148) -/

/-- One raw record: Year, Month, Title, Published_As. -/
structure RawRecord where
  Year : String
  Month : String
  Title : String
  Published_As : String
deriving DecidableEq, Repr

/-- A diagnostic for an unparsable line: its 1-based number and its
(stripped) text. -/
structure LogEntry where
  lineNum : Nat
  text : String
deriving DecidableEq, Repr

/-- The characters of the diagnostic message printed for an unparsable line. -/
def msgChars (e : LogEntry) : List Char :=
  "could not match line number ".toList ++ (Nat.repr e.lineNum).toList
    ++ " [".toList ++ e.text.toList
    ++ "], does not appear to be Title (Author)".toList

/-- The diagnostic message printed for an unparsable line. -/
def renderLog (e : LogEntry) : String := List.asString (msgChars e)

/-- Scanner state: emitted records, the current issue line (if any seen),
the 1-based line counter, emitted diagnostics, and the per-issue story
counter. -/
structure ScanState where
  records : List RawRecord
  current_issue : Option String
  lineNum : Nat
  logs : List LogEntry
  numStories : Nat
deriving DecidableEq, Repr

/-- The scanner's initial state (`records = []`, `current_issue = None`). -/
def initState : ScanState := ⟨[], none, 0, [], 0⟩

/-- Split the stored issue line into month and year, as in
`soup_to_dataframe` lines 128-136: empty strings when no issue seen. -/
def issueParts : Option String → String × String
  | none => ("", "")
  | some iss =>
    match wsplitStr iss with
    | [m, y] => (m, y)
    | _ => (iss, "")

/-- One iteration of the scan loop over a raw line: strip; skip blanks;
recognize issue headers; otherwise parse `Title (Author)` and either emit
a record with the current issue context or log a diagnostic. -/
def processLine (st : ScanState) (rawLine : String) : ScanState :=
  let n := st.lineNum + 1
  let line := strTrim rawLine
  if line = "" then { st with lineNum := n }
  else if is_issue_line line then
    { st with lineNum := n, current_issue := some line, numStories := 0 }
  else
    match parseStory line with
    | some ta =>
      let my := issueParts st.current_issue
      { st with
        lineNum := n
        numStories := st.numStories + 1
        records := st.records ++ [⟨my.2, my.1, ta.1, ta.2⟩] }
    | none =>
      { st with lineNum := n, logs := st.logs ++ [⟨n, line⟩] }

/-- Run the scan loop from a given state. -/
def scanFrom (st : ScanState) : List String → ScanState
  | [] => st
  | l :: ls => scanFrom (processLine st l) ls

/-- Scan a whole document (its lines) from the initial state. -/
def scanLines (lines : List String) : ScanState := scanFrom initState lines

/-- `soup_to_dataframe` restricted to its core: the ordered record list
produced from the document's lines. -/
def soup_to_dataframe (lines : List String) : List RawRecord :=
  (scanLines lines).records

/-! ## Final records (`main`, lines 338-339) -/

/-- A final record, after the `Author` column is added and `Published_As`
is spelling-normalized. -/
structure FinalRecord where
  Year : String
  Month : String
  Title : String
  Published_As : String
  Author : String
deriving DecidableEq, Repr

/-- Apply `normalize_author` (for `Author`) and `spell_lastfirst` (for the
new `Published_As`) to one raw record, as `main` does column-wise. -/
def finalizeRecord (spell pen : AliasTable) (r : RawRecord) : Option FinalRecord :=
  match normalize_author spell pen r.Published_As, spell_lastfirst spell r.Published_As with
  | some a, some p =>
    some ⟨r.Year, r.Month, r.Title, p, a⟩
  | _, _ => none

/-- The whole core pipeline: scan the lines, then normalize each record. -/
def runPipeline (spell pen : AliasTable) (lines : List String) : Option (List FinalRecord) :=
  (soup_to_dataframe lines).mapM (finalizeRecord spell pen)

end ASF

namespace ASF

/-! ## C1: end-to-end scenario -/

/-- C1: scanning the five sample lines with a pen-name table mapping
"Heinlein, Robert A." to aliases "Anson MacDonald" and "Heinlein" yields
exactly three records in input order; the third has Month "August",
Year "1939", Title "Life-Line", Author equal to the canonical Heinlein
identity, and Published_As keeps the spelling-normalized literal byline,
which differs from the pen-name-resolved identity. -/
theorem end_to_end_scan_pipeline :
    runPipeline [] [("Heinlein, Robert A.", ["Anson MacDonald", "Heinlein"])]
      ["July 1939", "Black Destroyer (A. E. van Vogt)", "Trends (Isaac Asimov)",
       "August 1939", "Life-Line (Robert Heinlein)"] =
      some [⟨"1939", "July", "Black Destroyer", "van Vogt, A. E.", "van Vogt, A. E."⟩,
            ⟨"1939", "July", "Trends", "Asimov, Isaac", "Asimov, Isaac"⟩,
            ⟨"1939", "August", "Life-Line", "Heinlein, Robert", "Heinlein, Robert A."⟩] ∧
    ("Heinlein, Robert" : String) ≠ "Heinlein, Robert A." := by
  exact ⟨by decide, by decide⟩

end ASF

namespace ASF

/-! ## C5 and C10: alias resolution -/

/-- The empty alias is a substring of every name. -/
lemma aliasMatches_empty (name : String) : aliasMatches "" name = true := by
  show listIsSub (lowerL "".toList) (lowerL name.toList) = true
  cases lowerL name.toList with
  | nil => rfl
  | cons c cs => simp [listIsSub, listIsPre]

/-- C5: `change_aliases` returns the input unchanged when no alias of any
entry matches, and otherwise returns the canonical name of the first
entry (in table order) with a matching alias; it never fails. -/
theorem resolve_first_match_wins :
    (∀ (name : String) (table : AliasTable),
      (∀ p ∈ table, ∀ al ∈ p.2, aliasMatches al name = false) →
      change_aliases name table = name)
    ∧ (∀ (name c : String) (pre post : AliasTable) (als : List String),
      (∀ p ∈ pre, ∀ al ∈ p.2, aliasMatches al name = false) →
      (∃ al ∈ als, aliasMatches al name = true) →
      change_aliases name (pre ++ (c, als) :: post) = c) := by
  constructor
  · intro name table h
    induction table with
    | nil => rfl
    | cons p rest ih =>
      obtain ⟨c, als⟩ := p
      cases hany : als.any (fun al => aliasMatches al name) with
      | false =>
        have : change_aliases name ((c, als) :: rest) = change_aliases name rest := by
          simp [change_aliases, hany]
        rw [this]
        exact ih (fun q hq al hal => h q (List.mem_cons_of_mem _ hq) al hal)
      | true =>
        exfalso
        obtain ⟨al, hal, hm⟩ := List.any_eq_true.mp hany
        rw [h (c, als) (List.mem_cons_self _ _) al hal] at hm
        exact Bool.false_ne_true hm
  · intro name c pre post als hpre hmatch
    induction pre with
    | nil =>
      have hany : als.any (fun al => aliasMatches al name) = true := by
        obtain ⟨al, hal, hm⟩ := hmatch
        exact List.any_eq_true.mpr ⟨al, hal, hm⟩
      simp [change_aliases, hany]
    | cons p rest ih =>
      obtain ⟨c', als'⟩ := p
      cases hany : als'.any (fun al => aliasMatches al name) with
      | false =>
        have : change_aliases name (((c', als') :: rest) ++ (c, als) :: post)
            = change_aliases name (rest ++ (c, als) :: post) := by
          simp [change_aliases, hany]
        rw [this]
        exact ih (fun q hq al hal => hpre q (List.mem_cons_of_mem _ hq) al hal)
      | true =>
        exfalso
        obtain ⟨al, hal, hm⟩ := List.any_eq_true.mp hany
        rw [hpre (c', als') (List.mem_cons_self _ _) al hal] at hm
        exact Bool.false_ne_true hm

/-- C5 witness: with a deliberately overlapping fixture, the first
matching entry wins. -/
theorem resolve_first_match_wins_witness :
    change_aliases "Heinlein"
      ([("Foo", ["zzz"]), ("A", ["ei"]), ("B", ["ei"])] : AliasTable) = "A" :=
  resolve_first_match_wins.2 "Heinlein" "A" [("Foo", ["zzz"])] [("B", ["ei"])] ["ei"]
    (by decide) (by decide)

/-- C10: when some entry of the table has the empty string among its
aliases, `change_aliases` always resolves to the canonical name of the
first entry with a matching alias (which exists for every input name):
empty aliases are not rejected and match every name, so the pass-through
branch is never taken and the result is always a canonical name of the
table. -/
theorem empty_alias_matches_all :
    ∀ (table : AliasTable) (e : String × List String),
      e ∈ table → "" ∈ e.2 →
      ∀ name : String, ∃ pre ent post,
        table = pre ++ ent :: post ∧
        (∀ p ∈ pre, ∀ al ∈ p.2, aliasMatches al name = false) ∧
        (∃ al ∈ ent.2, aliasMatches al name = true) ∧
        change_aliases name table = ent.1 ∧
        ent.1 ∈ table.map Prod.fst := by
  intro table
  induction table with
  | nil => intro e he; exact absurd he (List.not_mem_nil e)
  | cons hd tl ih =>
    intro e he hempty name
    by_cases hany : hd.2.any (fun al => aliasMatches al name) = true
    · refine ⟨[], hd, tl, by simp, by simp, ?_, ?_, by simp⟩
      · obtain ⟨al, hal, hm⟩ := List.any_eq_true.mp hany
        exact ⟨al, hal, hm⟩
      · obtain ⟨c, als⟩ := hd
        show (if als.any (fun al => aliasMatches al name) then c
              else change_aliases name tl) = c
        rw [if_pos hany]
    · have hetl : e ∈ tl := by
        rcases List.mem_cons.mp he with heq | h
        · exfalso
          apply hany
          exact List.any_eq_true.mpr ⟨"", heq ▸ hempty, aliasMatches_empty name⟩
        · exact h
      obtain ⟨pre, ent, post, htl, hpre, hm, hch, hmem⟩ := ih e hetl hempty name
      refine ⟨hd :: pre, ent, post, by rw [htl]; rfl, ?_, hm, ?_, ?_⟩
      · intro p hp al hal
        rcases List.mem_cons.mp hp with rfl | hp'
        · simp only [List.any_eq_true, not_exists, not_and] at hany
          have := hany al hal
          simp only [Bool.not_eq_true] at this
          exact this
        · exact hpre p hp' al hal
      · obtain ⟨c, als⟩ := hd
        show (if als.any (fun al => aliasMatches al name) then c
              else change_aliases name tl) = ent.1
        rw [if_neg hany, hch]
      · exact List.mem_cons_of_mem _ hmem

/-- C10 witness: a table whose second entry carries the empty alias
resolves an arbitrary unrelated name to that entry's canonical name. -/
theorem empty_alias_matches_all_witness :
    ∃ pre ent post,
      ([("A", ["qq"]), ("C", [""])] : AliasTable) = pre ++ ent :: post ∧
      (∀ p ∈ pre, ∀ al ∈ p.2, aliasMatches al "anything" = false) ∧
      (∃ al ∈ ent.2, aliasMatches al "anything" = true) ∧
      change_aliases "anything" ([("A", ["qq"]), ("C", [""])] : AliasTable) = ent.1 ∧
      ent.1 ∈ ([("A", ["qq"]), ("C", [""])] : AliasTable).map Prod.fst :=
  empty_alias_matches_all [("A", ["qq"]), ("C", [""])] ("C", [""])
    (by decide) (by decide) "anything"

/-! ## C2: the three-stage transform on emitted records -/

/-- C2: every finalized record's `Author` is the full three-stage
transform `process_pennames (combine_spellings (last_first x))` of the
raw byline `x`, while its `Published_As` is only
`combine_spellings (last_first x)` — the pen-name stage is never applied
to `Published_As`. -/
theorem author_and_published_as_stages :
    ∀ (spell pen : AliasTable) (r : RawRecord) (fr : FinalRecord),
      finalizeRecord spell pen r = some fr →
      ∃ f, last_first r.Published_As = some f ∧
        fr.Author = process_pennames pen (combine_spellings spell f) ∧
        fr.Published_As = combine_spellings spell f := by
  intro spell pen r fr h
  unfold finalizeRecord normalize_author spell_lastfirst at h
  cases hl : last_first r.Published_As with
  | none => rw [hl] at h; simp at h
  | some f =>
    rw [hl] at h
    simp only [Option.map_some'] at h
    refine ⟨f, rfl, ?_, ?_⟩
    · rw [← Option.some_inj.mp h]
    · rw [← Option.some_inj.mp h]

/-- C2 witness: at the concrete byline "Robert Heinlein" with empty
tables, both columns are the formatted name and the stages compose as
claimed. -/
theorem author_and_published_as_stages_witness :
    ∃ f, last_first "Robert Heinlein" = some f ∧
      ("Heinlein, Robert" : String) = process_pennames [] (combine_spellings [] f) ∧
      ("Heinlein, Robert" : String) = combine_spellings [] f :=
  author_and_published_as_stages [] [] ⟨"", "", "", "Robert Heinlein"⟩
    ⟨"", "", "", "Heinlein, Robert", "Heinlein, Robert"⟩ (by decide)

end ASF

namespace ASF

/-! ## Whitespace-splitting lemmas -/

lemma toList_asString (l : List Char) : (List.asString l).toList = l := rfl

lemma wsplitAux_allws (l : List Char) :
    ∀ acc, (∀ c ∈ l, c.isWhitespace = true) →
      wsplitAux l acc = if acc = [] then [] else [acc.reverse] := by
  induction l with
  | nil => intro acc _; rfl
  | cons c l ih =>
    intro acc h
    have hc : c.isWhitespace = true := h c (List.mem_cons_self _ _)
    have hl : ∀ x ∈ l, x.isWhitespace = true :=
      fun x hx => h x (List.mem_cons_of_mem _ hx)
    have hnil := ih [] hl
    simp only [if_pos rfl] at hnil
    by_cases hacc : acc = []
    · subst hacc
      simp [wsplitAux, hc, hnil]
    · simp [wsplitAux, hc, hacc, hnil]

lemma wsplitAux_ws_tail (l : List Char) :
    ∀ (tail acc : List Char), (∀ c ∈ tail, c.isWhitespace = true) →
      wsplitAux (l ++ tail) acc = wsplitAux l acc := by
  induction l with
  | nil =>
    intro tail acc h
    simp only [List.nil_append]
    exact wsplitAux_allws tail acc h
  | cons c l ih =>
    intro tail acc h
    by_cases hc : c.isWhitespace = true
    · by_cases hacc : acc = []
      · subst hacc
        simp [wsplitAux, hc, ih tail [] h]
      · simp [wsplitAux, hc, hacc, ih tail [] h]
    · simp [wsplitAux, hc, ih tail (c :: acc) h]

lemma wsplitAux_dropWhile_front (cs : List Char) :
    wsplitAux (cs.dropWhile Char.isWhitespace) [] = wsplitAux cs [] := by
  induction cs with
  | nil => rfl
  | cons c l ih =>
    by_cases hc : c.isWhitespace = true
    · rw [List.dropWhile_cons_of_pos hc, ih]
      simp [wsplitAux, hc]
    · rw [List.dropWhile_cons_of_neg (by simp [hc])]

lemma trim_decomp (cs : List Char) :
    ∃ tailws, trimList cs ++ tailws = cs.dropWhile Char.isWhitespace ∧
      ∀ c ∈ tailws, c.isWhitespace = true := by
  refine ⟨(((cs.dropWhile Char.isWhitespace).reverse.takeWhile Char.isWhitespace)).reverse, ?_, ?_⟩
  · show (((cs.dropWhile Char.isWhitespace).reverse.dropWhile Char.isWhitespace)).reverse ++ _ = _
    rw [← List.reverse_append, List.takeWhile_append_dropWhile, List.reverse_reverse]
  · intro c hc
    rw [List.mem_reverse] at hc
    exact List.mem_takeWhile_imp hc

lemma wsplit_trimList (cs : List Char) : wsplit (trimList cs) = wsplit cs := by
  obtain ⟨tl, heq, hws⟩ := trim_decomp cs
  show wsplitAux (trimList cs) [] = wsplitAux cs []
  rw [← wsplitAux_ws_tail (trimList cs) tl [] hws, heq, wsplitAux_dropWhile_front]

lemma wsplitStr_strTrim (s : String) : wsplitStr (strTrim s) = wsplitStr s := by
  show (wsplit (List.asString (trimList s.toList)).toList).map List.asString = _
  rw [toList_asString, wsplit_trimList]; rfl

/-! ## C3: the issue-header classifier -/

lemma beginsFourDigits_iff (w : String) :
    beginsFourDigits w = true ↔
      ∃ a b c d r, w.toList = a :: b :: c :: d :: r ∧
        a.isDigit = true ∧ b.isDigit = true ∧ c.isDigit = true ∧ d.isDigit = true := by
  have hdata : w.toList = w.data := rfl
  rcases h : w.data with _ | ⟨a, _ | ⟨b, _ | ⟨c, _ | ⟨d, r⟩⟩⟩⟩ <;>
    simp [beginsFourDigits, hdata, h, Bool.and_eq_true, and_assoc]

/-- C3: a line classifies as an issue header exactly when its trimmed text
splits on whitespace into two tokens, the first a (case-sensitive) month
name and the second beginning with four digit characters; with the
concrete examples from the specification. -/
theorem classify_iff_issue_header :
    (∀ line : String, is_issue_line line = true ↔
      ∃ w1 w2, wsplitStr (strTrim line) = [w1, w2] ∧ w1 ∈ months ∧
        ∃ a b c d r, w2.toList = a :: b :: c :: d :: r ∧
          a.isDigit = true ∧ b.isDigit = true ∧ c.isDigit = true ∧ d.isDigit = true)
    ∧ is_issue_line "July 1939" = true
    ∧ is_issue_line "The Black Destroyer" = false
    ∧ is_issue_line "July" = false := by
  refine ⟨?_, by decide, by decide, by decide⟩
  intro line
  rw [wsplitStr_strTrim]
  unfold is_issue_line
  cases h : wsplitStr line with
  | nil => simp
  | cons w1 rest =>
    cases rest with
    | nil => simp
    | cons w2 rest2 =>
      cases rest2 with
      | nil =>
        show (months.contains w1 && beginsFourDigits w2) = true ↔ _
        rw [Bool.and_eq_true]
        constructor
        · rintro ⟨h1, h2⟩
          exact ⟨w1, w2, rfl, List.elem_iff.mp h1, (beginsFourDigits_iff w2).mp h2⟩
        · rintro ⟨w1', w2', heq, hm, hd⟩
          rw [List.cons.injEq] at heq
          obtain ⟨rfl, heq2⟩ := heq
          rw [List.cons.injEq] at heq2
          obtain ⟨rfl, -⟩ := heq2
          exact ⟨List.elem_iff.mpr hm, (beginsFourDigits_iff _).mpr hd⟩
      | cons w3 r3 => simp

end ASF

namespace ASF

/-! ## C4: the story-line parser -/

lemma takeWhile_append_middle (p : Char → Bool) (l1 : List Char) (x : Char) (l2 : List Char)
    (h1 : ∀ c ∈ l1, p c = true) (hx : p x = false) :
    (l1 ++ x :: l2).takeWhile p = l1 ∧ (l1 ++ x :: l2).dropWhile p = x :: l2 := by
  induction l1 with
  | nil =>
    constructor <;> simp [List.takeWhile_cons, List.dropWhile_cons, hx]
  | cons c l ih =>
    have hc := h1 c (List.mem_cons_self _ _)
    obtain ⟨iht, ihd⟩ := ih (fun d hd => h1 d (List.mem_cons_of_mem _ hd))
    constructor
    · simp [List.takeWhile_cons, hc, iht]
    · simp [List.dropWhile_cons, hc, ihd]

lemma storySplit_cons (c : Char) (rest : List Char) :
    storySplit (c :: rest) =
      if c == ')' then
        match rest.dropWhile noParen with
        | [] => none
        | d :: pre =>
          if d == '(' then some (pre.reverse, (rest.takeWhile noParen).reverse)
          else none
      else none := rfl

/-- Characterization of the reversed-list story match: it succeeds with
title `tt` and author `aa` exactly when the line decomposes as
`tt ++ "(" ++ aa ++ ")"` with `aa` free of parentheses. -/
lemma storySplit_eq_iff (cs tt aa : List Char) :
    storySplit cs.reverse = some (tt, aa) ↔
      (cs = tt ++ '(' :: (aa ++ [')']) ∧ ∀ c ∈ aa, noParen c = true) := by
  constructor
  · intro h
    cases hr : cs.reverse with
    | nil => rw [hr] at h; exact absurd h (by simp [storySplit])
    | cons c rest =>
      rw [hr, storySplit_cons] at h
      split at h
      case isTrue hc =>
        split at h
        case h_1 => exact absurd h (by simp)
        case h_2 d pre hd =>
          split at h
          case isTrue hdp =>
            simp only [Option.some.injEq, Prod.mk.injEq] at h
            obtain ⟨h1, h2⟩ := h
            have hrest : rest = rest.takeWhile noParen ++ '(' :: pre := by
              conv_lhs => rw [← List.takeWhile_append_dropWhile noParen rest]
              rw [hd, beq_iff_eq.mp hdp]
            have hcs : cs = cs.reverse.reverse := (List.reverse_reverse cs).symm
            rw [hr, hrest, beq_iff_eq.mp hc] at hcs
            constructor
            · rw [hcs]
              simp [List.reverse_append, ← h1, ← h2]
            · intro x hx
              rw [← h2, List.mem_reverse] at hx
              exact List.mem_takeWhile_imp hx
          case isFalse => exact absurd h (by simp)
      case isFalse => exact absurd h (by simp)
  · rintro ⟨rfl, hnp⟩
    have hrev : (tt ++ '(' :: (aa ++ [')'])).reverse
        = ')' :: (aa.reverse ++ '(' :: tt.reverse) := by
      simp [List.reverse_append]
    rw [hrev, storySplit_cons]
    obtain ⟨htake, hdrop⟩ := takeWhile_append_middle noParen aa.reverse '(' tt.reverse
      (fun c hc => hnp c (List.mem_reverse.mp hc)) (by decide)
    rw [hdrop, htake]
    simp

/-- C4: `parseStory` succeeds exactly when the trimmed line ends in a
single non-nested parenthetical group; on success the title is the
(trimmed) part before the final group and the author is the (trimmed)
group contents; with the specification's concrete examples. -/
theorem parse_iff_trailing_parenthetical :
    (∀ (line t a : String), parseStory line = some (t, a) ↔
      ∃ pre inner, trimList line.toList = pre ++ '(' :: (inner ++ [')']) ∧
        (∀ c ∈ inner, noParen c = true) ∧
        t = List.asString (trimList pre) ∧ a = List.asString (trimList inner))
    ∧ parseStory "Black Destroyer (A. E. van Vogt)" = some ("Black Destroyer", "A. E. van Vogt")
    ∧ parseStory "No Parens Here" = none := by
  refine ⟨?_, by decide, by decide⟩
  intro line t a
  unfold parseStory
  constructor
  · intro h
    cases hs : storySplit (trimList line.toList).reverse with
    | none => rw [hs] at h; simp at h
    | some ta =>
      obtain ⟨tt, aa⟩ := ta
      rw [hs] at h
      simp only [Option.some.injEq, Prod.mk.injEq] at h
      obtain ⟨hdec, hnp⟩ := (storySplit_eq_iff _ tt aa).mp hs
      exact ⟨tt, aa, hdec, hnp, h.1.symm, h.2.symm⟩
  · rintro ⟨pre, inner, hdec, hnp, rfl, rfl⟩
    rw [(storySplit_eq_iff _ pre inner).mpr ⟨hdec, hnp⟩]

end ASF

namespace ASF

/-! ## C8 and C9: scanner behavior on story lines and failures -/

lemma listIsPre_self_append (a ext : List Char) : listIsPre a (a ++ ext) = true := by
  induction a with
  | nil => rfl
  | cons c cs ih => simp [listIsPre, ih]

lemma listIsSub_self_append (a y : List Char) : listIsSub a (a ++ y) = true := by
  cases a with
  | nil =>
    cases y with
    | nil => rfl
    | cons c cs => simp [listIsSub, listIsPre]
  | cons c cs =>
    show (listIsPre (c :: cs) (c :: (cs ++ y)) || _) = true
    simp [listIsPre, listIsPre_self_append]

lemma listIsSub_cons_of (a : List Char) (c : Char) (cs : List Char)
    (h : listIsSub a cs = true) : listIsSub a (c :: cs) = true := by
  show (listIsPre a (c :: cs) || listIsSub a cs) = true
  simp [h]

lemma listIsSub_append_left (a x hay : List Char)
    (h : listIsSub a hay = true) : listIsSub a (x ++ hay) = true := by
  induction x with
  | nil => exact h
  | cons c cs ih => exact listIsSub_cons_of a c (cs ++ hay) ih

/-- Step equation: a non-blank, non-header line that fails the story
parse only bumps the line counter and appends one diagnostic carrying the
1-based line number and the stripped line text. -/
lemma processLine_unparsed (st : ScanState) (line : String)
    (h1 : strTrim line ≠ "") (h2 : is_issue_line (strTrim line) = false)
    (h3 : parseStory (strTrim line) = none) :
    processLine st line
      = { st with
          lineNum := st.lineNum + 1
          logs := st.logs ++ [⟨st.lineNum + 1, strTrim line⟩] } := by
  unfold processLine
  rw [if_neg h1, if_neg (by simp [h2]), h3]

/-- Step equation: a non-blank, non-header line that parses as
`Title (Author)` appends exactly one record built from the current issue
context. -/
lemma processLine_parsed (st : ScanState) (line t a : String)
    (h1 : strTrim line ≠ "") (h2 : is_issue_line (strTrim line) = false)
    (h3 : parseStory (strTrim line) = some (t, a)) :
    processLine st line
      = { st with
          lineNum := st.lineNum + 1
          numStories := st.numStories + 1
          records := st.records
            ++ [⟨(issueParts st.current_issue).2, (issueParts st.current_issue).1, t, a⟩] } := by
  unfold processLine
  rw [if_neg h1, if_neg (by simp [h2]), h3]

/-- Step equation: a header line only updates the current issue (and
resets the story counter). -/
lemma processLine_header (st : ScanState) (line : String)
    (h2 : is_issue_line (strTrim line) = true) :
    processLine st line
      = { st with
          lineNum := st.lineNum + 1
          current_issue := some (strTrim line)
          numStories := 0 } := by
  have h1 : strTrim line ≠ "" := by
    intro hb
    rw [hb] at h2
    exact absurd h2 (by decide)
  unfold processLine
  rw [if_neg h1, if_pos h2]

/-- C8: an unparsable (non-blank, non-header) story line produces exactly
one diagnostic holding its 1-based line number and its text — whose
rendered message contains both — contributes no record, leaves the issue
context unchanged, and the scan continues over the rest of the lines
exactly as if only the counter and log had advanced. -/
theorem unparsable_line_logged_skipped :
    ∀ (st : ScanState) (line : String) (rest : List String),
      strTrim line ≠ "" → is_issue_line (strTrim line) = false →
      parseStory (strTrim line) = none →
      processLine st line
          = { st with
              lineNum := st.lineNum + 1
              logs := st.logs ++ [⟨st.lineNum + 1, strTrim line⟩] }
        ∧ (processLine st line).records = st.records
        ∧ (processLine st line).current_issue = st.current_issue
        ∧ scanFrom st (line :: rest)
            = scanFrom { st with
                lineNum := st.lineNum + 1
                logs := st.logs ++ [⟨st.lineNum + 1, strTrim line⟩] } rest
        ∧ listIsSub (Nat.repr (st.lineNum + 1)).toList
            (renderLog ⟨st.lineNum + 1, strTrim line⟩).toList = true
        ∧ listIsSub (strTrim line).toList
            (renderLog ⟨st.lineNum + 1, strTrim line⟩).toList = true := by
  intro st line rest h1 h2 h3
  have hstep := processLine_unparsed st line h1 h2 h3
  refine ⟨hstep, by rw [hstep], by rw [hstep], ?_, ?_, ?_⟩
  · show scanFrom (processLine st line) rest = _
    rw [hstep]
  · show listIsSub _ (msgChars ⟨st.lineNum + 1, strTrim line⟩) = true
    unfold msgChars
    simp only [List.append_assoc]
    exact listIsSub_append_left _ _ _
      (listIsSub_self_append (Nat.repr (st.lineNum + 1)).toList _)
  · show listIsSub _ (msgChars ⟨st.lineNum + 1, strTrim line⟩) = true
    unfold msgChars
    simp only [List.append_assoc]
    refine listIsSub_append_left _ _ _ (listIsSub_append_left _ _ _
      (listIsSub_append_left _ _ _ (listIsSub_self_append (strTrim line).toList _)))

/-- C8 witness: the unparsable line "No Parens Here" between two state
observations, at the initial state. -/
theorem unparsable_line_logged_skipped_witness :
    processLine initState "No Parens Here"
        = { initState with
            lineNum := 1
            logs := [⟨1, strTrim "No Parens Here"⟩] }
      ∧ (processLine initState "No Parens Here").records = initState.records
      ∧ (processLine initState "No Parens Here").current_issue = initState.current_issue
      ∧ scanFrom initState ("No Parens Here" :: ["Trends (Isaac Asimov)"])
          = scanFrom { initState with
              lineNum := 1
              logs := [⟨1, strTrim "No Parens Here"⟩] } ["Trends (Isaac Asimov)"]
      ∧ listIsSub (Nat.repr 1).toList
          (renderLog ⟨1, strTrim "No Parens Here"⟩).toList = true
      ∧ listIsSub (strTrim "No Parens Here").toList
          (renderLog ⟨1, strTrim "No Parens Here"⟩).toList = true :=
  unparsable_line_logged_skipped initState "No Parens Here" ["Trends (Isaac Asimov)"]
    (by decide) (by decide) (by decide)

/-- C9: a parsed story line emits one record copying the current issue
context — empty Year and Month when no header has been seen yet (not an
error), or the active header's month and year — without changing that
context; and a header line replaces the context with its own text. -/
theorem record_uses_issue_context :
    ∀ (st : ScanState) (line t a : String),
      strTrim line ≠ "" → is_issue_line (strTrim line) = false →
      parseStory (strTrim line) = some (t, a) →
      (processLine st line).records
          = st.records
            ++ [⟨(issueParts st.current_issue).2, (issueParts st.current_issue).1, t, a⟩]
        ∧ (st.current_issue = none → issueParts st.current_issue = ("", ""))
        ∧ (∀ iss m y, st.current_issue = some iss → wsplitStr iss = [m, y] →
            issueParts st.current_issue = (m, y))
        ∧ (processLine st line).current_issue = st.current_issue
        ∧ (∀ (st' : ScanState) (hline : String), is_issue_line (strTrim hline) = true →
            (processLine st' hline).current_issue = some (strTrim hline)) := by
  intro st line t a h1 h2 h3
  have hstep := processLine_parsed st line t a h1 h2 h3
  refine ⟨by rw [hstep], ?_, ?_, by rw [hstep], ?_⟩
  · intro hnone; rw [hnone]; rfl
  · intro iss m y hsome hsplit
    rw [hsome]
    simp only [issueParts]
    rw [hsplit]
  · intro st' hline hh
    rw [processLine_header st' hline hh]

/-- C9 witness: before any header the emitted record has empty Year and
Month; the header equation and issue-part equations at concrete inputs. -/
theorem record_uses_issue_context_witness :
    (processLine initState "Life-Line (Robert Heinlein)").records
        = initState.records
          ++ [⟨(issueParts initState.current_issue).2,
               (issueParts initState.current_issue).1, "Life-Line", "Robert Heinlein"⟩]
      ∧ (initState.current_issue = none → issueParts initState.current_issue = ("", ""))
      ∧ (∀ iss m y, initState.current_issue = some iss → wsplitStr iss = [m, y] →
          issueParts initState.current_issue = (m, y))
      ∧ (processLine initState "Life-Line (Robert Heinlein)").current_issue
          = initState.current_issue
      ∧ (∀ (st' : ScanState) (hline : String), is_issue_line (strTrim hline) = true →
          (processLine st' hline).current_issue = some (strTrim hline)) :=
  record_uses_issue_context initState "Life-Line (Robert Heinlein)"
    "Life-Line" "Robert Heinlein" (by decide) (by decide) (by decide)

end ASF

namespace ASF

/-! ## Token and join machinery for the name formatter -/

/-- A good token: nonempty, and free of whitespace and commas (the shape
of the name tokens `last_first` manipulates). -/
def goodTok (t : List Char) : Prop :=
  t ≠ [] ∧ ∀ c ∈ t, wsComma c = false

lemma goodTok_no_ws {t : List Char} (h : goodTok t) :
    ∀ c ∈ t, c.isWhitespace = false := by
  intro c hc
  have := h.2 c hc
  unfold wsComma at this
  simp only [Bool.or_eq_false_iff] at this
  exact this.1

lemma goodTok_no_comma {t : List Char} (h : goodTok t) : ∀ c ∈ t, c ≠ ',' := by
  intro c hc
  have := h.2 c hc
  unfold wsComma at this
  simp only [Bool.or_eq_false_iff] at this
  intro hcc
  rw [hcc] at this
  exact absurd this.2 (by decide)

lemma wsplitAux_token (t : List Char) (h : ∀ c ∈ t, c.isWhitespace = false) :
    ∀ (cs acc : List Char), wsplitAux (t ++ cs) acc = wsplitAux cs (t.reverse ++ acc) := by
  induction t with
  | nil => intro cs acc; simp
  | cons c t ih =>
    intro cs acc
    have hc : c.isWhitespace = false := h c (List.mem_cons_self _ _)
    have ht : ∀ x ∈ t, x.isWhitespace = false := fun x hx => h x (List.mem_cons_of_mem _ hx)
    show wsplitAux (c :: (t ++ cs)) acc = _
    simp only [wsplitAux, hc, Bool.false_eq_true, if_false, ih ht cs (c :: acc),
      List.reverse_cons, List.append_assoc, List.singleton_append]

/-- Splitting the space-join of good tokens recovers the tokens: the
whitespace-collapse step of `last_first` is the identity on such joins. -/
lemma wsplit_wjoin (ts : List (List Char))
    (h : ∀ t ∈ ts, t ≠ [] ∧ ∀ c ∈ t, c.isWhitespace = false) :
    wsplit (wjoin ts) = ts := by
  induction ts with
  | nil => rfl
  | cons t ts ih =>
    obtain ⟨hne, hws⟩ := h t (List.mem_cons_self _ _)
    have hts : ∀ u ∈ ts, u ≠ [] ∧ ∀ c ∈ u, c.isWhitespace = false :=
      fun u hu => h u (List.mem_cons_of_mem _ hu)
    cases ts with
    | nil =>
      show wsplitAux (wjoin [t]) [] = [t]
      have : wjoin [t] = t ++ [] := by simp [wjoin]
      rw [this, wsplitAux_token t hws [] []]
      simp [wsplitAux, hne]
    | cons u us =>
      show wsplitAux (t ++ ' ' :: wjoin (u :: us)) [] = t :: u :: us
      rw [wsplitAux_token t hws _ []]
      have hrev : t.reverse ++ [] ≠ [] := by simp [hne]
      simp only [wsplitAux, Char.isWhitespace, List.append_nil]
      rw [if_pos (by decide), if_neg (by simpa using hne)]
      rw [List.reverse_reverse]
      exact congrArg _ (ih hts)

lemma wsplitAux_tokens_good :
    ∀ (cs acc : List Char), (∀ c ∈ acc, c.isWhitespace = false) →
      ∀ t ∈ wsplitAux cs acc, t ≠ [] ∧ ∀ c ∈ t, c.isWhitespace = false := by
  intro cs
  induction cs with
  | nil =>
    intro acc hacc t ht
    by_cases h : acc = []
    · subst h; simp [wsplitAux] at ht
    · simp only [wsplitAux, if_neg h, List.mem_singleton] at ht
      subst ht
      exact ⟨by simpa using h, fun c hc => hacc c (List.mem_reverse.mp hc)⟩
  | cons c cs ih =>
    intro acc hacc t ht
    by_cases hc : c.isWhitespace = true
    · by_cases h : acc = []
      · subst h
        simp only [wsplitAux, hc, if_true, if_pos rfl] at ht
        exact ih [] (by simp) t ht
      · simp only [wsplitAux, hc, if_true, if_neg h, List.mem_cons] at ht
        rcases ht with rfl | ht
        · exact ⟨by simpa using h, fun x hx => hacc x (List.mem_reverse.mp hx)⟩
        · exact ih [] (by simp) t ht
    · simp only [wsplitAux, hc, Bool.false_eq_true, if_false] at ht
      refine ih (c :: acc) ?_ t ht
      intro x hx
      rcases List.mem_cons.mp hx with rfl | hx
      · simpa using hc
      · exact hacc x hx

/-- Tokens produced by `wsplit` are nonempty and whitespace-free. -/
lemma wsplit_tokens_good (cs : List Char) :
    ∀ t ∈ wsplit cs, t ≠ [] ∧ ∀ c ∈ t, c.isWhitespace = false :=
  wsplitAux_tokens_good cs [] (by simp)

/-- Every character of a space-join is a token character or the space. -/
lemma mem_wjoin (ts : List (List Char)) (c : Char) (h : c ∈ wjoin ts) :
    (∃ t ∈ ts, c ∈ t) ∨ c = ' ' := by
  induction ts with
  | nil => simp [wjoin] at h
  | cons t ts ih =>
    cases ts with
    | nil =>
      simp only [wjoin] at h
      exact Or.inl ⟨t, List.mem_cons_self _ _, h⟩
    | cons u us =>
      show (∃ x ∈ t :: u :: us, c ∈ x) ∨ c = ' '
      rw [show wjoin (t :: u :: us) = t ++ ' ' :: wjoin (u :: us) from rfl] at h
      rcases List.mem_append.mp h with h1 | h2
      · exact Or.inl ⟨t, List.mem_cons_self _ _, h1⟩
      · rcases List.mem_cons.mp h2 with rfl | h3
        · exact Or.inr rfl
        · rcases ih h3 with ⟨x, hx, hcx⟩ | hsp
          · exact Or.inl ⟨x, List.mem_cons_of_mem _ hx, hcx⟩
          · exact Or.inr hsp

lemma wjoin_head (t : List Char) (ts : List (List Char)) (ht : t ≠ []) :
    ∃ c r, wjoin (t :: ts) = c :: r ∧ c ∈ t := by
  obtain ⟨c, t', rfl⟩ := List.exists_cons_of_ne_nil ht
  cases ts with
  | nil => exact ⟨c, t', rfl, List.mem_cons_self _ _⟩
  | cons u us =>
    exact ⟨c, t' ++ ' ' :: wjoin (u :: us), rfl, List.mem_cons_self _ _⟩

lemma wjoin_last (ts : List (List Char)) (t : List Char) (ht : t ≠ []) :
    ∃ i d, wjoin (ts ++ [t]) = i ++ [d] ∧ d ∈ t := by
  induction ts with
  | nil =>
    rcases List.eq_nil_or_concat t with rfl | ⟨i, d, rfl⟩
    · exact absurd rfl ht
    · exact ⟨i, d, by simp [wjoin], by simp⟩
  | cons u ts ih =>
    obtain ⟨i, d, hw, hd⟩ := ih
    cases hcons : ts ++ [t] with
    | nil => exact absurd hcons (by simp)
    | cons v vs =>
      refine ⟨u ++ ' ' :: i, d, ?_, hd⟩
      show wjoin (u :: (ts ++ [t])) = _
      rw [hcons, show wjoin (u :: v :: vs) = u ++ ' ' :: wjoin (v :: vs) from rfl, ← hcons, hw]
      simp

lemma wjoin_append (ls fs : List (List Char)) (hls : ls ≠ []) (hfs : fs ≠ []) :
    wjoin (ls ++ fs) = wjoin ls ++ ' ' :: wjoin fs := by
  induction ls with
  | nil => exact absurd rfl hls
  | cons l ls ih =>
    cases ls with
    | nil =>
      obtain ⟨f, fs', rfl⟩ := List.exists_cons_of_ne_nil hfs
      rfl
    | cons l' ls' =>
      show wjoin (l :: ((l' :: ls') ++ fs)) = _
      have h1 : (l' :: ls') ++ fs = l' :: (ls' ++ fs) := rfl
      rw [show wjoin (l :: ((l' :: ls') ++ fs)) = l ++ ' ' :: wjoin ((l' :: ls') ++ fs) from by
        rw [h1]; rfl]
      rw [ih (by simp)]
      rw [show wjoin (l :: l' :: ls') = l ++ ' ' :: wjoin (l' :: ls') from rfl]
      simp [List.append_assoc]

end ASF

namespace ASF

/-- Glue a trailing comma onto the last token of a token list (used to
express "Last, First" strings as space-joins of good tokens). -/
def glueLast : List (List Char) → List (List Char)
  | [] => []
  | [t] => [t ++ [',']]
  | t :: ts => t :: glueLast ts

lemma glueLast_ne_nil {ts : List (List Char)} (h : ts ≠ []) : glueLast ts ≠ [] := by
  cases ts with
  | nil => exact absurd rfl h
  | cons t ts => cases ts <;> simp [glueLast]

lemma wjoin_glueLast_append (ls rest : List (List Char)) (hls : ls ≠ []) (hrest : rest ≠ []) :
    wjoin (glueLast ls ++ rest) = wjoin ls ++ ',' :: ' ' :: wjoin rest := by
  induction ls with
  | nil => exact absurd rfl hls
  | cons t ls ih =>
    cases ls with
    | nil =>
      obtain ⟨r, rs, rfl⟩ := List.exists_cons_of_ne_nil hrest
      show wjoin ((t ++ [',']) :: r :: rs) = _
      rw [show wjoin ((t ++ [',']) :: r :: rs) = (t ++ [',']) ++ ' ' :: wjoin (r :: rs) from rfl]
      simp [wjoin, List.append_assoc]
    | cons u us =>
      have hgl : glueLast (u :: us) ++ rest ≠ [] := by
        have := glueLast_ne_nil (show (u :: us : List (List Char)) ≠ [] by simp)
        intro hc
        rcases List.append_eq_nil.mp hc with ⟨h1, _⟩
        exact this h1
      show wjoin (t :: (glueLast (u :: us) ++ rest)) = _
      obtain ⟨v, vs, hv⟩ := List.exists_cons_of_ne_nil hgl
      rw [hv, show wjoin (t :: v :: vs) = t ++ ' ' :: wjoin (v :: vs) from rfl, ← hv,
        ih (by simp)]
      rw [show wjoin (t :: u :: us) = t ++ ' ' :: wjoin (u :: us) from rfl]
      simp [List.append_assoc]

lemma glueLast_good (ts : List (List Char))
    (h : ∀ t ∈ ts, t ≠ [] ∧ ∀ c ∈ t, c.isWhitespace = false) :
    ∀ t ∈ glueLast ts, t ≠ [] ∧ ∀ c ∈ t, c.isWhitespace = false := by
  induction ts with
  | nil => simp [glueLast]
  | cons t ts ih =>
    cases ts with
    | nil =>
      intro u hu
      simp only [glueLast, List.mem_singleton] at hu
      subst hu
      obtain ⟨h1, h2⟩ := h t (List.mem_cons_self _ _)
      refine ⟨by simp, ?_⟩
      intro c hc
      rcases List.mem_append.mp hc with hc1 | hc2
      · exact h2 c hc1
      · rw [List.mem_singleton.mp hc2]; decide
    | cons u us =>
      intro v hv
      rcases List.mem_cons.mp hv with rfl | hv'
      · exact h v (List.mem_cons_self _ _)
      · exact ih (fun x hx => h x (List.mem_cons_of_mem _ hx)) v hv'

/-- `strip` is the identity on a string whose first and last characters
are not whitespace. -/
lemma trimList_eq_self {cs : List Char}
    (h1 : ∃ c r, cs = c :: r ∧ c.isWhitespace = false)
    (h2 : ∃ i d, cs = i ++ [d] ∧ d.isWhitespace = false) :
    trimList cs = cs := by
  obtain ⟨c, r, hcr, hc⟩ := h1
  obtain ⟨i, d, hid, hd⟩ := h2
  unfold trimList
  rw [hcr, List.dropWhile_cons_of_neg (by simp [hc]), ← hcr, hid]
  rw [List.reverse_append, List.reverse_singleton, List.singleton_append,
    List.dropWhile_cons_of_neg (by simp [hd])]
  simp

lemma trimList_cons_ws {c : Char} (hc : c.isWhitespace = true) (l : List Char) :
    trimList (c :: l) = trimList l := by
  unfold trimList
  rw [List.dropWhile_cons_of_pos hc]

/-- `rstrip(',')` is the identity on a string not ending in a comma. -/
lemma dropTrailingComma_eq_self {cs : List Char}
    (h : ∃ i d, cs = i ++ [d] ∧ (d == ',') = false) :
    dropTrailingComma cs = cs := by
  obtain ⟨i, d, hid, hd⟩ := h
  unfold dropTrailingComma
  rw [hid, List.reverse_append, List.reverse_singleton, List.singleton_append,
    List.dropWhile_cons_of_neg (by simp [hd])]
  simp

end ASF

namespace ASF

/-! ## Computation of `suffixSplit` on shaped inputs -/

lemma takeWhile_all (p : Char → Bool) (l : List Char) (h : ∀ c ∈ l, p c = true) :
    l.takeWhile p = l ∧ l.dropWhile p = [] := by
  induction l with
  | nil => exact ⟨rfl, rfl⟩
  | cons c cs ih =>
    have hc := h c (List.mem_cons_self _ _)
    obtain ⟨iht, ihd⟩ := ih (fun x hx => h x (List.mem_cons_of_mem _ hx))
    exact ⟨by simp [List.takeWhile_cons, hc, iht], by simp [List.dropWhile_cons, hc, ihd]⟩

/-- A suffix token separated by one space: the regex finds it, with the
separator being just the space. -/
lemma suffixSplit_space_suffix (i : List Char) (d : Char) (s : List Char)
    (hd : wsComma d = false) (hs : goodTok s)
    (hsfx : suffixLow.contains (List.asString (lowerL s)) = true) :
    suffixSplit ((i ++ [d]) ++ ' ' :: s) = some (i ++ [d], s) := by
  obtain ⟨hsne, hsgood⟩ := hs
  have hrev : ((i ++ [d]) ++ ' ' :: s).reverse = s.reverse ++ ' ' :: (d :: i.reverse) := by
    simp [List.reverse_append]
  obtain ⟨htake, hdrop⟩ := takeWhile_append_middle (fun c => !wsComma c) s.reverse ' '
    (d :: i.reverse) (fun c hc => by simp [hsgood c (List.mem_reverse.mp hc)]) (by decide)
  have hws : (' ' :: d :: i.reverse).takeWhile wsComma = [' '] := by
    rw [List.takeWhile_cons_of_pos (by decide), List.takeWhile_cons_of_neg (by simp [hd])]
  simp only [suffixSplit, hrev, htake, hdrop]
  rw [if_neg (by simpa using hsne), List.reverse_reverse, hsfx]
  simp only [Bool.not_true, Bool.false_eq_true, if_false, reduceCtorEq]
  rw [hws, if_neg (show ¬ ((([' '] : List Char).contains ',') = true) by decide)]
  simp

/-- A suffix token preceded by comma-space: the regex finds it, the
separator being the comma and the space. -/
lemma suffixSplit_comma_space_suffix (i : List Char) (d : Char) (s : List Char)
    (hd : wsComma d = false) (hs : goodTok s)
    (hsfx : suffixLow.contains (List.asString (lowerL s)) = true) :
    suffixSplit ((i ++ [d]) ++ ',' :: ' ' :: s) = some (i ++ [d], s) := by
  obtain ⟨hsne, hsgood⟩ := hs
  have hrev : ((i ++ [d]) ++ ',' :: ' ' :: s).reverse
      = s.reverse ++ ' ' :: (',' :: d :: i.reverse) := by
    simp [List.reverse_append]
  obtain ⟨htake, hdrop⟩ := takeWhile_append_middle (fun c => !wsComma c) s.reverse ' '
    (',' :: d :: i.reverse) (fun c hc => by simp [hsgood c (List.mem_reverse.mp hc)]) (by decide)
  have hws : (' ' :: ',' :: d :: i.reverse).takeWhile wsComma = [' ', ','] := by
    rw [List.takeWhile_cons_of_pos (by decide), List.takeWhile_cons_of_pos (by decide),
      List.takeWhile_cons_of_neg (by simp [hd])]
  simp only [suffixSplit, hrev, htake, hdrop]
  rw [if_neg (by simpa using hsne), List.reverse_reverse, hsfx]
  simp only [Bool.not_true, Bool.false_eq_true, if_false, reduceCtorEq]
  rw [hws, if_pos (show ((([' ', ','] : List Char).contains ',') = true) by decide)]
  rw [show (List.takeWhile (fun c => c != ',') ([' ', ','] : List Char) ++ [',']) = [' ', ','] from by decide]
  simp

/-- A final token that is not a generational suffix: the regex fails. -/
lemma suffixSplit_none_of_not_suffix (A : List Char) (d : Char) (t : List Char)
    (hd : wsComma d = true) (ht : goodTok t)
    (hsfx : suffixLow.contains (List.asString (lowerL t)) = false) :
    suffixSplit (A ++ d :: t) = none := by
  obtain ⟨htne, htgood⟩ := ht
  have hrev : (A ++ d :: t).reverse = t.reverse ++ d :: A.reverse := by
    simp [List.reverse_append]
  obtain ⟨htake, hdrop⟩ := takeWhile_append_middle (fun c => !wsComma c) t.reverse d
    A.reverse (fun c hc => by simp [htgood c (List.mem_reverse.mp hc)]) (by simp [hd])
  simp only [suffixSplit, hrev, htake, hdrop]
  rw [if_neg (by simpa using htne), List.reverse_reverse, hsfx]
  simp

/-- A single run with no separator anywhere: the regex fails (no
whitespace or comma precedes the candidate suffix). -/
lemma suffixSplit_none_of_single_run (t : List Char)
    (h : ∀ c ∈ t, wsComma c = false) :
    suffixSplit t = none := by
  cases htn : t with
  | nil => rfl
  | cons c cs =>
    rw [← htn]
    obtain ⟨htake, hdrop⟩ := takeWhile_all (fun c => !wsComma c) t.reverse
      (fun c hc => by simp [h c (List.mem_reverse.mp hc)])
    simp only [suffixSplit, htake, hdrop]
    rw [if_neg (by simp [htn]), List.reverse_reverse]
    cases hc : suffixLow.contains (List.asString (lowerL t)) <;> simp

end ASF

namespace ASF

/-! ## Computation of the comma branch and `last_first` unfoldings -/

lemma wjoin_no_comma (ts : List (List Char)) (h : ∀ t ∈ ts, goodTok t) :
    ∀ c ∈ wjoin ts, (c != ',') = true := by
  intro c hc
  rcases mem_wjoin ts c hc with ⟨t, ht, hct⟩ | rfl
  · have := goodTok_no_comma (h t ht) c hct
    simpa using this
  · decide

lemma wjoin_no_ws (ts : List (List Char)) (h : ∀ t ∈ ts, goodTok t) :
    ∀ t ∈ ts, t ≠ [] ∧ ∀ c ∈ t, c.isWhitespace = false :=
  fun t ht => ⟨(h t ht).1, goodTok_no_ws (h t ht)⟩

lemma wjoin_ends (ts : List (List Char)) (hne : ts ≠ []) (h : ∀ t ∈ ts, goodTok t) :
    (∃ c r, wjoin ts = c :: r ∧ wsComma c = false)
    ∧ (∃ i d, wjoin ts = i ++ [d] ∧ wsComma d = false) := by
  obtain ⟨t, ts', rfl⟩ := List.exists_cons_of_ne_nil hne
  constructor
  · obtain ⟨c, r, hw, hct⟩ := wjoin_head t ts' (h t (List.mem_cons_self _ _)).1
    exact ⟨c, r, hw, (h t (List.mem_cons_self _ _)).2 c hct⟩
  · rcases List.eq_nil_or_concat (t :: ts') with habs | ⟨init, lastTok, heq⟩
    · exact absurd habs (by simp)
    · rw [List.concat_eq_append] at heq
      have hlmem : lastTok ∈ t :: ts' := by rw [heq]; simp
      obtain ⟨i, d, hw, hdm⟩ := wjoin_last init lastTok (h lastTok hlmem).1
      rw [← heq] at hw
      exact ⟨i, d, hw, (h lastTok hlmem).2 d hdm⟩

lemma trimList_wjoin (ts : List (List Char)) (hne : ts ≠ []) (h : ∀ t ∈ ts, goodTok t) :
    trimList (wjoin ts) = wjoin ts := by
  obtain ⟨⟨c, r, hw1, hc1⟩, ⟨i, d, hw2, hc2⟩⟩ := wjoin_ends ts hne h
  refine trimList_eq_self ⟨c, r, hw1, ?_⟩ ⟨i, d, hw2, ?_⟩
  · unfold wsComma at hc1
    simp only [Bool.or_eq_false_iff] at hc1
    exact hc1.1
  · unfold wsComma at hc2
    simp only [Bool.or_eq_false_iff] at hc2
    exact hc2.1

lemma dropTrailingComma_wjoin (ts : List (List Char)) (hne : ts ≠ [])
    (h : ∀ t ∈ ts, goodTok t) :
    dropTrailingComma (wjoin ts) = wjoin ts := by
  obtain ⟨_, ⟨i, d, hw2, hc2⟩⟩ := wjoin_ends ts hne h
  refine dropTrailingComma_eq_self ⟨i, d, hw2, ?_⟩
  unfold wsComma at hc2
  simp only [Bool.or_eq_false_iff] at hc2
  simpa using hc2.2

/-- The comma branch of `last_first` is the identity on a well-formed
"Last, First" string built from good tokens. -/
lemma commaSplitResult_glued (ls fs : List (List Char)) (hls : ls ≠ []) (hfs : fs ≠ [])
    (hgls : ∀ t ∈ ls, goodTok t) (hgfs : ∀ t ∈ fs, goodTok t) :
    commaSplitResult (wjoin ls ++ ',' :: ' ' :: wjoin fs)
      = wjoin ls ++ ',' :: ' ' :: wjoin fs := by
  obtain ⟨htake, hdrop⟩ := takeWhile_append_middle (fun c => c != ',') (wjoin ls) ','
    (' ' :: wjoin fs) (wjoin_no_comma ls hgls) (by decide)
  unfold commaSplitResult
  simp only [htake, hdrop, List.tail_cons]
  rw [trimList_wjoin ls hls hgls, trimList_cons_ws (by decide), trimList_wjoin fs hfs hgfs]
  obtain ⟨⟨c, r, hw1, _⟩, _⟩ := wjoin_ends fs hfs hgfs
  rw [if_neg (by simp [hw1])]

/-- Unfolding of `last_first` when the suffix regex matches. -/
lemma last_first_of_suffix (name : String) (kept s : List Char)
    (hne : trimList name.toList ≠ [])
    (hs : suffixSplit (trimList name.toList) = some (kept, s)) (hsne : s ≠ []) :
    last_first name = (bodyResult (dropTrailingComma (trimList kept))).map
      (fun res => List.asString (wjoin (wsplit (res ++ ' ' :: s)))) := by
  unfold last_first
  rw [if_neg hne, hs]
  simp only [if_neg hsne]

/-- Unfolding of `last_first` when the suffix regex does not match. -/
lemma last_first_no_suffix (name : String)
    (hne : trimList name.toList ≠ [])
    (hs : suffixSplit (trimList name.toList) = none) :
    last_first name = (bodyResult (trimList name.toList)).map
      (fun res => List.asString (wjoin (wsplit res))) := by
  unfold last_first
  rw [if_neg hne, hs]
  simp

/-- Unfolding of `bodyResult` on a comma-free working name. -/
lemma bodyResult_no_comma (cs1 : List Char) (h : ',' ∉ cs1) :
    bodyResult cs1 = tokenResult (wsplit cs1) := by
  unfold bodyResult
  rw [if_neg (by simpa using h)]

/-- Unfolding of `bodyResult` on a comma-containing working name. -/
lemma bodyResult_with_comma (cs1 : List Char) (h : ',' ∈ cs1) :
    bodyResult cs1 = some (commaSplitResult cs1) := by
  unfold bodyResult
  rw [if_pos (by simpa using h)]

lemma tokenResult_concat_rev (gs : List (List Char)) (p q : List Char) :
    tokenResult (gs ++ [p, q]) = tokenResultRev (q :: p :: gs.reverse) := by
  unfold tokenResult
  congr 1
  simp

lemma tokenResultRev_cons₂ (q p : List Char) (gsRev : List (List Char)) :
    tokenResultRev (q :: p :: gsRev) = some (
      if ((!gsRev.isEmpty) && particles.contains (List.asString (lowerL (p ++ ' ' :: q))))
         || particles.contains (List.asString (lowerL p)) then
        (if wjoin gsRev.reverse = [] then p ++ ' ' :: q
         else (p ++ ' ' :: q) ++ ',' :: ' ' :: wjoin gsRev.reverse)
      else (if wjoin (gsRev.reverse ++ [p]) = [] then q
            else q ++ ',' :: ' ' :: wjoin (gsRev.reverse ++ [p]))) := by
  unfold tokenResultRev
  by_cases h : ((!gsRev.isEmpty) && particles.contains (List.asString (lowerL (p ++ ' ' :: q))))
      || particles.contains (List.asString (lowerL p))
  · simp only [h, if_true]
  · simp only [h, Bool.false_eq_true, if_false]

end ASF

namespace ASF

/-! ## C6: surname selection in the token branch -/

lemma wjoin_cons_of_ne (t : List Char) (ts : List (List Char)) (h : ts ≠ []) :
    wjoin (t :: ts) = t ++ ' ' :: wjoin ts := by
  obtain ⟨u, us, rfl⟩ := List.exists_cons_of_ne_nil h
  rfl

lemma wjoin_comma_glue (a : List Char) (rest : List (List Char)) (hrest : rest ≠ []) :
    wjoin ((a ++ [',']) :: rest) = a ++ ',' :: ' ' :: wjoin rest := by
  rw [wjoin_cons_of_ne _ _ hrest]
  simp [List.append_assoc]

lemma mem_of_mem_trimList {c : Char} {cs : List Char} (h : c ∈ trimList cs) : c ∈ cs := by
  unfold trimList at h
  rw [List.mem_reverse] at h
  have h2 := (List.dropWhile_sublist _).mem h
  rw [List.mem_reverse] at h2
  exact (List.dropWhile_sublist _).mem h2

/-- C6: on a comma-free, suffix-free name of at least two tokens,
`last_first` selects the surname by the particle rules — the last two
tokens when (with three or more tokens) their lowercase join is a
particle-set member, or when the lowercase second-to-last token alone is
one; otherwise only the final token — and produces "Surname, GivenName"
(just the surname when no given-name tokens remain). -/
theorem format_surname_particle_selection :
    ∀ (name : String) (gs : List (List Char)) (p q : List Char),
      ',' ∉ name.toList →
      suffixSplit (trimList name.toList) = none →
      wsplit name.toList = gs ++ [p, q] →
      last_first name = some (List.asString (
        if (gs ≠ [] ∧ List.asString (lowerL (p ++ ' ' :: q)) ∈ particles)
            ∨ List.asString (lowerL p) ∈ particles then
          (if gs = [] then p ++ ' ' :: q
           else (p ++ ' ' :: q) ++ ',' :: ' ' :: wjoin gs)
        else q ++ ',' :: ' ' :: wjoin (gs ++ [p]))) := by
  intro name gs p q hc hs hts
  have hwt : wsplit (trimList name.toList) = gs ++ [p, q] := by
    rw [wsplit_trimList]; exact hts
  have hne : trimList name.toList ≠ [] := by
    intro h0
    rw [h0] at hwt
    exact absurd hwt.symm (by simp [wsplit, wsplitAux])
  have hmemtrim : ',' ∉ trimList name.toList := fun hm => hc (mem_of_mem_trimList hm)
  rw [last_first_no_suffix name hne hs, bodyResult_no_comma _ hmemtrim, hwt,
    tokenResult_concat_rev, tokenResultRev_cons₂]
  simp only [List.reverse_reverse, Option.map_some']
  have hgood : ∀ t ∈ gs ++ [p, q], t ≠ [] ∧ ∀ c ∈ t, c.isWhitespace = false := by
    rw [← hwt]; exact wsplit_tokens_good _
  have hpgood : p ≠ [] ∧ ∀ c ∈ p, c.isWhitespace = false := hgood p (by simp)
  have hqgood : q ≠ [] ∧ ∀ c ∈ q, c.isWhitespace = false := hgood q (by simp)
  have hgsgood : ∀ t ∈ gs, t ≠ [] ∧ ∀ c ∈ t, c.isWhitespace = false :=
    fun t ht => hgood t (List.mem_append.mpr (Or.inl ht))
  have hglue : (q ++ [','] : List Char) ≠ [] ∧ ∀ c ∈ q ++ [','], c.isWhitespace = false := by
    refine ⟨by simp, ?_⟩
    intro c hcmem
    rcases List.mem_append.mp hcmem with h1 | h2
    · exact hqgood.2 c h1
    · rw [List.mem_singleton.mp h2]; decide
  have hcond :
      ((((!gs.reverse.isEmpty)
          && particles.contains (List.asString (lowerL (p ++ ' ' :: q))))
        || particles.contains (List.asString (lowerL p))) = true)
      ↔ ((gs ≠ [] ∧ List.asString (lowerL (p ++ ' ' :: q)) ∈ particles)
          ∨ List.asString (lowerL p) ∈ particles) := by
    rw [Bool.or_eq_true, Bool.and_eq_true]
    constructor
    · rintro (⟨h1, h2⟩ | h3)
      · refine Or.inl ⟨?_, List.elem_iff.mp h2⟩
        intro h0
        rw [h0] at h1
        exact absurd h1 (by decide)
      · exact Or.inr (List.elem_iff.mp h3)
    · rintro (⟨h1, h2⟩ | h3)
      · refine Or.inl ⟨?_, List.elem_iff.mpr h2⟩
        simp [List.isEmpty_iff, h1]
      · exact Or.inr (List.elem_iff.mpr h3)
  by_cases hcase : (gs ≠ [] ∧ List.asString (lowerL (p ++ ' ' :: q)) ∈ particles)
      ∨ List.asString (lowerL p) ∈ particles
  · rw [if_pos (hcond.mpr hcase), if_pos hcase]
    by_cases hgs : gs = []
    · subst hgs
      rw [if_pos rfl, if_pos (show wjoin ([] : List (List Char)) = [] from rfl)]
      have hform : p ++ ' ' :: q = wjoin [p, q] := rfl
      rw [hform, wsplit_wjoin [p, q] (by
        intro t ht
        rcases List.mem_cons.mp ht with rfl | ht2
        · exact hpgood
        · rw [List.mem_singleton.mp ht2]; exact hqgood)]
    · have hwgs : wjoin gs ≠ [] := by
        obtain ⟨g, gs', rfl⟩ := List.exists_cons_of_ne_nil hgs
        obtain ⟨c, r, hw, _⟩ := wjoin_head g gs' (hgsgood g (List.mem_cons_self _ _)).1
        simp [hw]
      rw [if_neg hwgs, if_neg hgs]
      have hform : (p ++ ' ' :: q) ++ ',' :: ' ' :: wjoin gs
          = wjoin (p :: (q ++ [',']) :: gs) := by
        rw [wjoin_cons_of_ne p _ (by simp), wjoin_comma_glue q gs hgs]
        simp [List.append_assoc]
      rw [hform, wsplit_wjoin (p :: (q ++ [',']) :: gs) (by
        intro t ht
        rcases List.mem_cons.mp ht with rfl | ht2
        · exact hpgood
        · rcases List.mem_cons.mp ht2 with rfl | ht3
          · exact hglue
          · exact hgsgood t ht3)]
  · rw [if_neg (by rw [hcond]; exact hcase), if_neg hcase]
    have hgsp : gs ++ [p] ≠ [] := by simp
    have hwgsp : wjoin (gs ++ [p]) ≠ [] := by
      obtain ⟨g, gs', hg⟩ := List.exists_cons_of_ne_nil hgsp
      rw [hg]
      obtain ⟨c, r, hw, _⟩ := wjoin_head g gs' (by
        have : g ∈ gs ++ [p] := by rw [hg]; exact List.mem_cons_self _ _
        rcases List.mem_append.mp this with h1 | h2
        · exact (hgsgood g h1).1
        · rw [List.mem_singleton.mp h2]; exact hpgood.1)
      simp [hw]
    rw [if_neg hwgsp]
    have hform : q ++ ',' :: ' ' :: wjoin (gs ++ [p])
        = wjoin ((q ++ [',']) :: (gs ++ [p])) := by
      rw [wjoin_comma_glue q (gs ++ [p]) hgsp]
    rw [hform, wsplit_wjoin ((q ++ [',']) :: (gs ++ [p])) (by
      intro t ht
      rcases List.mem_cons.mp ht with rfl | ht2
      · exact hglue
      · rcases List.mem_append.mp ht2 with h1 | h2
        · exact hgsgood t h1
        · rw [List.mem_singleton.mp h2]; exact hpgood)]

/-- C6 witness: the two-word-particle example from the specification,
`format("Ludwig van Beethoven") = "van Beethoven, Ludwig"`. -/
theorem format_surname_particle_selection_witness :
    last_first "Ludwig van Beethoven" = some (List.asString (
      if (([("Ludwig".toList)] : List (List Char)) ≠ []
            ∧ List.asString (lowerL ("van".toList ++ ' ' :: "Beethoven".toList)) ∈ particles)
          ∨ List.asString (lowerL "van".toList) ∈ particles then
        (if ([("Ludwig".toList)] : List (List Char)) = []
         then "van".toList ++ ' ' :: "Beethoven".toList
         else ("van".toList ++ ' ' :: "Beethoven".toList)
           ++ ',' :: ' ' :: wjoin [("Ludwig".toList)])
      else "Beethoven".toList ++ ',' :: ' ' :: wjoin ([("Ludwig".toList)] ++ ["van".toList]))) :=
  format_surname_particle_selection "Ludwig van Beethoven" ["Ludwig".toList]
    "van".toList "Beethoven".toList (by decide) (by decide) (by decide)

end ASF

namespace ASF

/-! ## C7: shapes of "Last, First [Suffix]" strings and fixed points -/

lemma wsComma_false_ws {c : Char} (h : wsComma c = false) : c.isWhitespace = false := by
  unfold wsComma at h
  simp only [Bool.or_eq_false_iff] at h
  exact h.1

lemma wsComma_false_comma {c : Char} (h : wsComma c = false) : (c == ',') = false := by
  unfold wsComma at h
  simp only [Bool.or_eq_false_iff] at h
  exact h.2

/-- The characters of a well-formed "Last, First" string: the space-join
of the Last tokens, a comma, a space, the space-join of the First tokens. -/
def commaShape (ls fs : List (List Char)) : List Char :=
  wjoin ls ++ ',' :: ' ' :: wjoin fs

lemma trimList_commaShape (ls fs : List (List Char)) (hls : ls ≠ []) (hfs : fs ≠ [])
    (hgls : ∀ t ∈ ls, goodTok t) (hgfs : ∀ t ∈ fs, goodTok t) :
    trimList (commaShape ls fs) = commaShape ls fs := by
  unfold commaShape
  obtain ⟨c, r, hw1, hc1⟩ := (wjoin_ends ls hls hgls).1
  obtain ⟨i, d, hw2, hd2⟩ := (wjoin_ends fs hfs hgfs).2
  refine trimList_eq_self ⟨c, r ++ ',' :: ' ' :: wjoin fs, by rw [hw1]; rfl, wsComma_false_ws hc1⟩
    ⟨wjoin ls ++ ',' :: ' ' :: i, d, by rw [hw2]; simp [List.append_assoc], wsComma_false_ws hd2⟩

lemma trimList_shape_suffix (base s : List Char)
    (hb : ∃ c r, base = c :: r ∧ c.isWhitespace = false)
    (hs : goodTok s) :
    trimList (base ++ ' ' :: s) = base ++ ' ' :: s := by
  obtain ⟨c, r, hcr, hc⟩ := hb
  rcases List.eq_nil_or_concat s with rfl | ⟨i, d, hid⟩
  · exact absurd rfl hs.1
  · rw [List.concat_eq_append] at hid
    have hdmem : d ∈ s := by rw [hid]; simp
    refine trimList_eq_self ⟨c, r ++ ' ' :: s, by rw [hcr]; rfl, hc⟩
      ⟨base ++ ' ' :: i, d, by rw [hid]; simp [List.append_assoc], ?_⟩
    exact wsComma_false_ws (hs.2 d hdmem)

/-- The collapse step is the identity on "Last, First" strings built from
good tokens. -/
lemma collapse_commaShape (ls fs : List (List Char)) (hls : ls ≠ []) (hfs : fs ≠ [])
    (hgls : ∀ t ∈ ls, goodTok t) (hgfs : ∀ t ∈ fs, goodTok t) :
    wjoin (wsplit (commaShape ls fs)) = commaShape ls fs := by
  have hform : commaShape ls fs = wjoin (glueLast ls ++ fs) := by
    rw [wjoin_glueLast_append ls fs hls hfs]; rfl
  rw [hform, wsplit_wjoin]
  intro t ht
  rcases List.mem_append.mp ht with h1 | h2
  · exact glueLast_good ls (wjoin_no_ws ls hgls) t h1
  · exact wjoin_no_ws fs hgfs t h2

/-- The collapse step is the identity on "Last, First Suffix" strings. -/
lemma collapse_commaShape_suffix (ls fs : List (List Char)) (s : List Char)
    (hls : ls ≠ []) (hfs : fs ≠ [])
    (hgls : ∀ t ∈ ls, goodTok t) (hgfs : ∀ t ∈ fs, goodTok t) (hs : goodTok s) :
    wjoin (wsplit (commaShape ls fs ++ ' ' :: s)) = commaShape ls fs ++ ' ' :: s := by
  have hform : commaShape ls fs ++ ' ' :: s = wjoin (glueLast ls ++ (fs ++ [s])) := by
    rw [wjoin_glueLast_append ls (fs ++ [s]) hls (by simp),
      wjoin_append fs [s] hfs (by simp)]
    show commaShape ls fs ++ ' ' :: s = wjoin ls ++ ',' :: ' ' :: (wjoin fs ++ ' ' :: wjoin [s])
    unfold commaShape
    simp [List.append_assoc, wjoin]
  rw [hform, wsplit_wjoin]
  intro t ht
  rcases List.mem_append.mp ht with h1 | h2
  · exact glueLast_good ls (wjoin_no_ws ls hgls) t h1
  · rcases List.mem_append.mp h2 with h3 | h4
    · exact wjoin_no_ws fs hgfs t h3
    · rw [List.mem_singleton.mp h4]
      exact ⟨hs.1, goodTok_no_ws hs⟩

lemma comma_mem_commaShape (ls fs : List (List Char)) : ',' ∈ commaShape ls fs := by
  unfold commaShape
  exact List.mem_append.mpr (Or.inr (List.mem_cons_self _ _))

lemma comma_not_mem_wjoin (ts : List (List Char)) (h : ∀ t ∈ ts, goodTok t) :
    ',' ∉ wjoin ts := by
  intro hm
  have := wjoin_no_comma ts h ',' hm
  simp at this

/-- `suffixSplit` on "Last, First Suffix": finds the suffix, keeping
"Last, First". -/
lemma suffixSplit_commaShape_suffix (ls fs : List (List Char)) (s : List Char)
    (_hls : ls ≠ []) (hfs : fs ≠ [])
    (_hgls : ∀ t ∈ ls, goodTok t) (hgfs : ∀ t ∈ fs, goodTok t)
    (hs : goodTok s) (hsfx : suffixLow.contains (List.asString (lowerL s)) = true) :
    suffixSplit (commaShape ls fs ++ ' ' :: s) = some (commaShape ls fs, s) := by
  obtain ⟨i, d, hw2, hd2⟩ := (wjoin_ends fs hfs hgfs).2
  have hshape : commaShape ls fs = (wjoin ls ++ ',' :: ' ' :: i) ++ [d] := by
    unfold commaShape
    rw [hw2]
    simp [List.append_assoc]
  rw [hshape, suffixSplit_space_suffix _ d s hd2 hs hsfx]

/-- C7 fixed point, shape "Last, First Suffix": `last_first` reproduces
the string exactly. -/
lemma last_first_fixed_comma_suffix (ls fs : List (List Char)) (s : List Char)
    (hls : ls ≠ []) (hfs : fs ≠ [])
    (hgls : ∀ t ∈ ls, goodTok t) (hgfs : ∀ t ∈ fs, goodTok t)
    (hs : goodTok s) (hsfx : suffixLow.contains (List.asString (lowerL s)) = true) :
    last_first (List.asString (commaShape ls fs ++ ' ' :: s))
      = some (List.asString (commaShape ls fs ++ ' ' :: s)) := by
  obtain ⟨c0, r0, hw0, hc0⟩ := (wjoin_ends ls hls hgls).1
  have hhead : ∃ c r, commaShape ls fs = c :: r ∧ c.isWhitespace = false :=
    ⟨c0, r0 ++ ',' :: ' ' :: wjoin fs, by unfold commaShape; rw [hw0]; rfl, wsComma_false_ws hc0⟩
  have htrim : trimList (List.asString (commaShape ls fs ++ ' ' :: s)).toList
      = commaShape ls fs ++ ' ' :: s := by
    rw [toList_asString]
    exact trimList_shape_suffix _ s hhead hs
  have hne : trimList (List.asString (commaShape ls fs ++ ' ' :: s)).toList ≠ [] := by
    rw [htrim]
    obtain ⟨c, r, hcr, _⟩ := hhead
    rw [hcr]
    simp
  have hsplit : suffixSplit (trimList (List.asString (commaShape ls fs ++ ' ' :: s)).toList)
      = some (commaShape ls fs, s) := by
    rw [htrim]
    exact suffixSplit_commaShape_suffix ls fs s hls hfs hgls hgfs hs hsfx
  rw [last_first_of_suffix _ _ s hne hsplit hs.1]
  rw [trimList_commaShape ls fs hls hfs hgls hgfs]
  have hdtc : dropTrailingComma (commaShape ls fs) = commaShape ls fs := by
    obtain ⟨i, d, hw2, hd2⟩ := (wjoin_ends fs hfs hgfs).2
    refine dropTrailingComma_eq_self ⟨wjoin ls ++ ',' :: ' ' :: i, d, ?_, wsComma_false_comma hd2⟩
    unfold commaShape
    rw [hw2]
    simp [List.append_assoc]
  rw [hdtc, bodyResult_with_comma _ (comma_mem_commaShape ls fs)]
  rw [show commaSplitResult (commaShape ls fs) = commaShape ls fs from
    commaSplitResult_glued ls fs hls hfs hgls hgfs]
  simp only [Option.map_some']
  rw [collapse_commaShape_suffix ls fs s hls hfs hgls hgfs hs]

/-- C7 fixed point, shape "Last, First" whose final token is not a
generational suffix: `last_first` reproduces the string exactly. -/
lemma last_first_fixed_comma_nosuffix (ls gs : List (List Char)) (t : List Char)
    (hls : ls ≠ []) (hgls : ∀ u ∈ ls, goodTok u)
    (hgf : ∀ u ∈ gs ++ [t], goodTok u)
    (hnot : suffixLow.contains (List.asString (lowerL t)) = false) :
    last_first (List.asString (commaShape ls (gs ++ [t])))
      = some (List.asString (commaShape ls (gs ++ [t]))) := by
  have hfs : gs ++ [t] ≠ [] := by simp
  have hgt : goodTok t := hgf t (by simp)
  have htrim : trimList (List.asString (commaShape ls (gs ++ [t]))).toList
      = commaShape ls (gs ++ [t]) := by
    rw [toList_asString]
    exact trimList_commaShape ls (gs ++ [t]) hls hfs hgls hgf
  have hne : trimList (List.asString (commaShape ls (gs ++ [t]))).toList ≠ [] := by
    rw [htrim]
    obtain ⟨c, r, hcr, _⟩ := (wjoin_ends ls hls hgls).1
    unfold commaShape
    rw [hcr]
    simp
  have hsplit : suffixSplit (trimList (List.asString (commaShape ls (gs ++ [t]))).toList)
      = none := by
    rw [htrim]
    have hshape : ∃ A, commaShape ls (gs ++ [t]) = A ++ ' ' :: t := by
      cases gs with
      | nil =>
        exact ⟨wjoin ls ++ [','], by unfold commaShape; simp [wjoin, List.append_assoc]⟩
      | cons g gs' =>
        refine ⟨wjoin ls ++ ',' :: ' ' :: wjoin (g :: gs'), ?_⟩
        unfold commaShape
        rw [wjoin_append (g :: gs') [t] (by simp) (by simp)]
        simp [wjoin, List.append_assoc]
    obtain ⟨A, hA⟩ := hshape
    rw [hA]
    exact suffixSplit_none_of_not_suffix A ' ' t (by decide) hgt hnot
  rw [last_first_no_suffix _ hne hsplit, htrim,
    bodyResult_with_comma _ (comma_mem_commaShape ls (gs ++ [t]))]
  rw [show commaSplitResult (commaShape ls (gs ++ [t])) = commaShape ls (gs ++ [t]) from
    commaSplitResult_glued ls (gs ++ [t]) hls hfs hgls hgf]
  simp only [Option.map_some']
  rw [collapse_commaShape ls (gs ++ [t]) hls hfs hgls hgf]

end ASF

namespace ASF

/-! ## C7: token-branch fixed points and the "Last, Suffix" computation -/

lemma tokenResult_single (t : List Char) : tokenResult [t] = some t := rfl

lemma tokenResult_pair (p q : List Char) :
    tokenResult [p, q] = tokenResultRev [q, p] := rfl

/-- `suffixSplit` on "Tokens Suffix" (no comma): finds the suffix. -/
lemma suffixSplit_tokens_suffix (ls : List (List Char)) (s : List Char)
    (hls : ls ≠ []) (hgls : ∀ t ∈ ls, goodTok t)
    (hs : goodTok s) (hsfx : suffixLow.contains (List.asString (lowerL s)) = true) :
    suffixSplit (wjoin ls ++ ' ' :: s) = some (wjoin ls, s) := by
  obtain ⟨i, d, hw2, hd2⟩ := (wjoin_ends ls hls hgls).2
  rw [hw2, suffixSplit_space_suffix i d s hd2 hs hsfx]

/-- C7 fixed point, shape "Tokens Suffix" where the token branch leaves
the tokens unchanged: `last_first` reproduces the string exactly. -/
lemma last_first_fixed_tokens_suffix (ls : List (List Char)) (s : List Char)
    (hls : ls ≠ []) (hgls : ∀ t ∈ ls, goodTok t)
    (hs : goodTok s) (hsfx : suffixLow.contains (List.asString (lowerL s)) = true)
    (htr : tokenResult ls = some (wjoin ls)) :
    last_first (List.asString (wjoin ls ++ ' ' :: s))
      = some (List.asString (wjoin ls ++ ' ' :: s)) := by
  obtain ⟨c0, r0, hw0, hc0⟩ := (wjoin_ends ls hls hgls).1
  have htrim : trimList (List.asString (wjoin ls ++ ' ' :: s)).toList
      = wjoin ls ++ ' ' :: s := by
    rw [toList_asString]
    exact trimList_shape_suffix _ s ⟨c0, r0, hw0, wsComma_false_ws hc0⟩ hs
  have hne : trimList (List.asString (wjoin ls ++ ' ' :: s)).toList ≠ [] := by
    rw [htrim, hw0]
    simp
  have hsplit : suffixSplit (trimList (List.asString (wjoin ls ++ ' ' :: s)).toList)
      = some (wjoin ls, s) := by
    rw [htrim]
    exact suffixSplit_tokens_suffix ls s hls hgls hs hsfx
  rw [last_first_of_suffix _ _ s hne hsplit hs.1,
    trimList_wjoin ls hls hgls, dropTrailingComma_wjoin ls hls hgls,
    bodyResult_no_comma _ (comma_not_mem_wjoin ls hgls),
    wsplit_wjoin ls (wjoin_no_ws ls hgls), htr]
  simp only [Option.map_some']
  have hform : wjoin ls ++ ' ' :: s = wjoin (ls ++ [s]) := by
    rw [wjoin_append ls [s] hls (by simp)]
    rfl
  rw [hform, wsplit_wjoin (ls ++ [s]) (by
    intro t ht
    rcases List.mem_append.mp ht with h1 | h2
    · exact wjoin_no_ws ls hgls t h1
    · rw [List.mem_singleton.mp h2]
      exact ⟨hs.1, goodTok_no_ws hs⟩)]

/-- Computation of `last_first` on "Last, Suffix" (single suffix token as
the First part): the comma and suffix are both consumed by the suffix
regex, and the token branch runs on the Last tokens alone. -/
lemma last_first_comma_suffix_only (ls : List (List Char)) (s res : List Char)
    (hls : ls ≠ []) (hgls : ∀ t ∈ ls, goodTok t)
    (hs : goodTok s) (hsfx : suffixLow.contains (List.asString (lowerL s)) = true)
    (htr : tokenResult ls = some res) :
    last_first (List.asString (wjoin ls ++ ',' :: ' ' :: s))
      = some (List.asString (wjoin (wsplit (res ++ ' ' :: s)))) := by
  obtain ⟨c0, r0, hw0, hc0⟩ := (wjoin_ends ls hls hgls).1
  obtain ⟨i, d, hw2, hd2⟩ := (wjoin_ends ls hls hgls).2
  have htrim : trimList (List.asString (wjoin ls ++ ',' :: ' ' :: s)).toList
      = wjoin ls ++ ',' :: ' ' :: s := by
    rw [toList_asString]
    rcases List.eq_nil_or_concat s with rfl | ⟨si, sd, hsid⟩
    · exact absurd rfl hs.1
    · rw [List.concat_eq_append] at hsid
      have hdmem : sd ∈ s := by rw [hsid]; simp
      refine trimList_eq_self
        ⟨c0, r0 ++ ',' :: ' ' :: s, by rw [hw0]; rfl, wsComma_false_ws hc0⟩
        ⟨wjoin ls ++ ',' :: ' ' :: si, sd, by rw [hsid]; simp [List.append_assoc], ?_⟩
      exact wsComma_false_ws (hs.2 sd hdmem)
  have hne : trimList (List.asString (wjoin ls ++ ',' :: ' ' :: s)).toList ≠ [] := by
    rw [htrim, hw0]
    simp
  have hsplit : suffixSplit (trimList (List.asString (wjoin ls ++ ',' :: ' ' :: s)).toList)
      = some (wjoin ls, s) := by
    rw [htrim, hw2, suffixSplit_comma_space_suffix i d s hd2 hs hsfx]
  rw [last_first_of_suffix _ _ s hne hsplit hs.1,
    trimList_wjoin ls hls hgls, dropTrailingComma_wjoin ls hls hgls,
    bodyResult_no_comma _ (comma_not_mem_wjoin ls hgls),
    wsplit_wjoin ls (wjoin_no_ws ls hgls), htr]
  simp only [Option.map_some']

end ASF

namespace ASF

/-- C7 helper: on "Last, Suffix" — where the First part is a single
suffix token — `last_first` re-runs the token branch on the Last tokens
and appends the suffix; one further application is then stable. -/
lemma bind_fixed_comma_suffix_only (ls : List (List Char)) (s : List Char)
    (hls : ls ≠ []) (hgls : ∀ t ∈ ls, goodTok t)
    (hs : goodTok s) (hsfx : suffixLow.contains (List.asString (lowerL s)) = true) :
    (last_first (List.asString (wjoin ls ++ ',' :: ' ' :: s))).bind last_first
      = last_first (List.asString (wjoin ls ++ ',' :: ' ' :: s)) := by
  rcases hrev : ls.reverse with _ | ⟨l1, _ | ⟨l2, lrest⟩⟩
  · exact absurd (by simpa using congrArg List.reverse hrev) hls
  · have hlseq : ls = [l1] := by
      have := congrArg List.reverse hrev
      simpa using this
    subst hlseq
    have h1 : last_first (List.asString (wjoin [l1] ++ ',' :: ' ' :: s))
        = some (List.asString (l1 ++ ' ' :: s)) := by
      rw [last_first_comma_suffix_only [l1] s l1 (by simp) hgls hs hsfx (tokenResult_single l1)]
      have hform : l1 ++ ' ' :: s = wjoin [l1, s] := rfl
      rw [hform, wsplit_wjoin [l1, s] (by
        intro t ht
        rcases List.mem_cons.mp ht with rfl | ht2
        · exact ⟨(hgls t (by simp)).1, goodTok_no_ws (hgls t (by simp))⟩
        · rw [List.mem_singleton.mp ht2]
          exact ⟨hs.1, goodTok_no_ws hs⟩)]
    rw [h1]
    show last_first (List.asString (l1 ++ ' ' :: s)) = some (List.asString (l1 ++ ' ' :: s))
    exact last_first_fixed_tokens_suffix [l1] s (by simp) hgls hs hsfx (tokenResult_single l1)
  · have hlseq : ls = lrest.reverse ++ [l2, l1] := by
      have := congrArg List.reverse hrev
      simpa using this
    have hl1 : goodTok l1 := hgls l1 (by rw [hlseq]; simp)
    have hl2 : goodTok l2 := hgls l2 (by rw [hlseq]; simp)
    have hlr : ∀ t ∈ lrest.reverse, goodTok t :=
      fun t ht => hgls t (by rw [hlseq]; exact List.mem_append.mpr (Or.inl ht))
    have htr0 : tokenResult ls = tokenResultRev (l1 :: l2 :: lrest) := by
      unfold tokenResult
      rw [hrev]
    by_cases hcond : (((!lrest.isEmpty)
        && particles.contains (List.asString (lowerL (l2 ++ ' ' :: l1))))
        || particles.contains (List.asString (lowerL l2))) = true
    · by_cases hlr0 : lrest = []
      · subst hlr0
        simp only [List.isEmpty_nil, Bool.not_true, Bool.false_and, Bool.false_or] at hcond
        have htr : tokenResult ls = some (l2 ++ ' ' :: l1) := by
          rw [htr0, tokenResultRev_cons₂]
          rw [if_pos (by rw [Bool.or_eq_true]; exact Or.inr hcond),
            if_pos (show wjoin ([] : List (List Char)).reverse = [] from rfl)]
        have hpq : tokenResult [l2, l1] = some (wjoin [l2, l1]) := by
          rw [tokenResult_pair, tokenResultRev_cons₂]
          rw [if_pos (by rw [Bool.or_eq_true]; exact Or.inr hcond),
            if_pos (show wjoin ([] : List (List Char)).reverse = [] from rfl)]
          rfl
        have h1 : last_first (List.asString (wjoin ls ++ ',' :: ' ' :: s))
            = some (List.asString (wjoin [l2, l1] ++ ' ' :: s)) := by
          rw [last_first_comma_suffix_only ls s (l2 ++ ' ' :: l1) hls hgls hs hsfx htr]
          have hform : (l2 ++ ' ' :: l1) ++ ' ' :: s = wjoin [l2, l1, s] := by
            show _ = l2 ++ ' ' :: (l1 ++ ' ' :: s)
            simp [List.append_assoc]
          rw [hform, wsplit_wjoin [l2, l1, s] (by
            intro t ht
            rcases List.mem_cons.mp ht with rfl | ht2
            · exact ⟨hl2.1, goodTok_no_ws hl2⟩
            · rcases List.mem_cons.mp ht2 with rfl | ht3
              · exact ⟨hl1.1, goodTok_no_ws hl1⟩
              · rw [List.mem_singleton.mp ht3]
                exact ⟨hs.1, goodTok_no_ws hs⟩)]
          rw [show wjoin [l2, l1, s] = wjoin [l2, l1] ++ ' ' :: s from by
            show l2 ++ ' ' :: (l1 ++ ' ' :: s) = (l2 ++ ' ' :: l1) ++ ' ' :: s
            simp [List.append_assoc]]
        rw [h1]
        show last_first (List.asString (wjoin [l2, l1] ++ ' ' :: s)) = _
        exact last_first_fixed_tokens_suffix [l2, l1] s (by simp) (by
          intro t ht
          rcases List.mem_cons.mp ht with rfl | ht2
          · exact hl2
          · rw [List.mem_singleton.mp ht2]; exact hl1) hs hsfx hpq
      · have hlrne : lrest.reverse ≠ [] := by simpa using hlr0
        have hwlr : wjoin lrest.reverse ≠ [] := by
          obtain ⟨c, r, hw, _⟩ := (wjoin_ends lrest.reverse hlrne hlr).1
          simp [hw]
        have htr : tokenResult ls
            = some ((l2 ++ ' ' :: l1) ++ ',' :: ' ' :: wjoin lrest.reverse) := by
          rw [htr0, tokenResultRev_cons₂, if_pos hcond, if_neg hwlr]
        have h1 : last_first (List.asString (wjoin ls ++ ',' :: ' ' :: s))
            = some (List.asString (commaShape [l2, l1] lrest.reverse ++ ' ' :: s)) := by
          rw [last_first_comma_suffix_only ls s _ hls hgls hs hsfx htr]
          have hform : ((l2 ++ ' ' :: l1) ++ ',' :: ' ' :: wjoin lrest.reverse) ++ ' ' :: s
              = commaShape [l2, l1] lrest.reverse ++ ' ' :: s := rfl
          rw [hform, collapse_commaShape_suffix [l2, l1] lrest.reverse s (by simp) hlrne (by
            intro t ht
            rcases List.mem_cons.mp ht with rfl | ht2
            · exact hl2
            · rw [List.mem_singleton.mp ht2]; exact hl1) hlr hs]
        rw [h1]
        show last_first (List.asString (commaShape [l2, l1] lrest.reverse ++ ' ' :: s)) = _
        exact last_first_fixed_comma_suffix [l2, l1] lrest.reverse s (by simp) hlrne (by
          intro t ht
          rcases List.mem_cons.mp ht with rfl | ht2
          · exact hl2
          · rw [List.mem_singleton.mp ht2]; exact hl1) hlr hs hsfx
    · have hgsp : lrest.reverse ++ [l2] ≠ [] := by simp
      have hgspgood : ∀ t ∈ lrest.reverse ++ [l2], goodTok t := by
        intro t ht
        rcases List.mem_append.mp ht with h1 | h2
        · exact hlr t h1
        · rw [List.mem_singleton.mp h2]; exact hl2
      have hwgsp : wjoin (lrest.reverse ++ [l2]) ≠ [] := by
        obtain ⟨c, r, hw, _⟩ := (wjoin_ends _ hgsp hgspgood).1
        simp [hw]
      have htr : tokenResult ls
          = some (l1 ++ ',' :: ' ' :: wjoin (lrest.reverse ++ [l2])) := by
        rw [htr0, tokenResultRev_cons₂, if_neg (by simpa using hcond), if_neg hwgsp]
      have h1 : last_first (List.asString (wjoin ls ++ ',' :: ' ' :: s))
          = some (List.asString (commaShape [l1] (lrest.reverse ++ [l2]) ++ ' ' :: s)) := by
        rw [last_first_comma_suffix_only ls s _ hls hgls hs hsfx htr]
        have hform : (l1 ++ ',' :: ' ' :: wjoin (lrest.reverse ++ [l2])) ++ ' ' :: s
            = commaShape [l1] (lrest.reverse ++ [l2]) ++ ' ' :: s := rfl
        rw [hform, collapse_commaShape_suffix [l1] (lrest.reverse ++ [l2]) s (by simp) hgsp
          (by intro t ht; rw [List.mem_singleton.mp ht]; exact hl1) hgspgood hs]
      rw [h1]
      show last_first (List.asString (commaShape [l1] (lrest.reverse ++ [l2]) ++ ' ' :: s)) = _
      exact last_first_fixed_comma_suffix [l1] (lrest.reverse ++ [l2]) s (by simp) hgsp
        (by intro t ht; rw [List.mem_singleton.mp ht]; exact hl1) hgspgood hs hsfx

end ASF

namespace ASF

lemma asString_toList (s : String) : List.asString s.toList = s := rfl

instance (t : List Char) : Decidable (goodTok t) := by
  unfold goodTok
  infer_instance

/-- A string in "Last, First" form — the shape `last_first` itself
produces — possibly with a trailing generational suffix: the space-join
of nonempty Last tokens, a comma and space, the space-join of nonempty
First tokens, and optionally a space and a suffix token; all tokens free
of whitespace and commas. -/
def LastFirstForm (x : String) : Prop :=
  ∃ ls fs : List (List Char), ∃ sfx : Option (List Char),
    ls ≠ [] ∧ fs ≠ [] ∧ (∀ t ∈ ls, goodTok t) ∧ (∀ t ∈ fs, goodTok t) ∧
    (match sfx with
     | none => x.toList = commaShape ls fs
     | some s => goodTok s ∧ suffixLow.contains (List.asString (lowerL s)) = true ∧
         x.toList = commaShape ls fs ++ ' ' :: s)

/-- C7: `last_first` is idempotent on every input in "Last, First" form
(possibly with a trailing generational suffix):
`format(format(x)) = format(x)`. -/
theorem format_idempotent_on_comma_form :
    ∀ x : String, LastFirstForm x → (last_first x).bind last_first = last_first x := by
  intro x hform
  obtain ⟨ls, fs, sfx, hls, hfs, hgls, hgfs, hrest⟩ := hform
  cases sfx with
  | some s =>
    obtain ⟨hsg, hsfx, hx⟩ := hrest
    have hxs : x = List.asString (commaShape ls fs ++ ' ' :: s) := by
      rw [← hx]
      exact (asString_toList x).symm
    have h1 : last_first x = some x := by
      rw [hxs]
      exact last_first_fixed_comma_suffix ls fs s hls hfs hgls hgfs hsg hsfx
    rw [h1]
    show last_first x = some x
    exact h1
  | none =>
    have hx : x.toList = commaShape ls fs := hrest
    rcases List.eq_nil_or_concat fs with rfl | ⟨gs, t, hfst⟩
    · exact absurd rfl hfs
    · rw [List.concat_eq_append] at hfst
      subst hfst
      have hgt : goodTok t := hgfs t (by simp)
      by_cases hts : suffixLow.contains (List.asString (lowerL t)) = true
      · by_cases hgs : gs = []
        · subst hgs
          have hxs : x = List.asString (wjoin ls ++ ',' :: ' ' :: t) := by
            rw [← show commaShape ls ([] ++ [t]) = wjoin ls ++ ',' :: ' ' :: t from rfl, ← hx]
            exact (asString_toList x).symm
          rw [hxs]
          exact bind_fixed_comma_suffix_only ls t hls hgls hgt hts
        · have hgsgood : ∀ u ∈ gs, goodTok u :=
            fun u hu => hgfs u (List.mem_append.mpr (Or.inl hu))
          have hshape : commaShape ls (gs ++ [t]) = commaShape ls gs ++ ' ' :: t := by
            unfold commaShape
            obtain ⟨g, gs', rfl⟩ := List.exists_cons_of_ne_nil hgs
            rw [wjoin_append (g :: gs') [t] (by simp) (by simp)]
            show _ ++ ',' :: ' ' :: (wjoin (g :: gs') ++ ' ' :: wjoin [t]) = _
            simp [wjoin, List.append_assoc]
          have hxs : x = List.asString (commaShape ls gs ++ ' ' :: t) := by
            rw [← hshape, ← hx]
            exact (asString_toList x).symm
          have h1 : last_first x = some x := by
            rw [hxs]
            exact last_first_fixed_comma_suffix ls gs t hls hgs hgls hgsgood hgt hts
          rw [h1]
          show last_first x = some x
          exact h1
      · have hxs : x = List.asString (commaShape ls (gs ++ [t])) := by
          rw [← hx]
          exact (asString_toList x).symm
        have h1 : last_first x = some x := by
          rw [hxs]
          exact last_first_fixed_comma_nosuffix ls gs t hls hgls hgfs (by simpa using hts)
        rw [h1]
        show last_first x = some x
        exact h1

/-- C7 witness: idempotence at the concrete "Last, First" inputs
"Heinlein, Robert A." and "Smith, John Jr." (the latter with a
generational suffix). -/
theorem format_idempotent_on_comma_form_witness :
    (last_first "Heinlein, Robert A.").bind last_first = last_first "Heinlein, Robert A."
    ∧ (last_first "Smith, John Jr.").bind last_first = last_first "Smith, John Jr." :=
  ⟨format_idempotent_on_comma_form "Heinlein, Robert A."
      ⟨["Heinlein".toList], ["Robert".toList, "A.".toList], none,
        by decide, by decide, by decide, by decide, by decide⟩,
    format_idempotent_on_comma_form "Smith, John Jr."
      ⟨["Smith".toList], ["John".toList], some "Jr.".toList,
        by decide, by decide, by decide, by decide, by decide, by decide, by decide⟩⟩

end ASF
